import Mathlib

/-
Verification of the jq-view-web core: tree building, mutation (reorder /
move-into), selection collection, jq expression synthesis
(src/internal/web/app.js) and result serialization (src/internal/jq/builder.go).

Strings of the source are modelled as `List Char` (named `Str`); JavaScript
string operations (slice, startsWith, endsWith, includes, split, join,
lastIndexOf, replace-first) are given as explicit list functions.  JavaScript
`Map` objects (which preserve insertion order, and on `set` of an existing key
keep its position) are modelled as association lists with order-preserving
update.  The in-place tree mutations of the source are modelled as pure
functions returning the updated tree; nodes referenced by identity in the
source (drag-and-drop event payloads) are resolved here by their address with
the source's own `findNodeByPath` / `findParentOfNode` pre-order first-match
discipline.
-/

abbrev Str := List Char

def strL (s : String) : Str := s.toList

/-- JavaScript `a.startsWith(b)`. -/
def jsStartsWith (s pat : Str) : Bool := List.isPrefixOf pat s

/-- JavaScript `a.endsWith(b)`. -/
def jsEndsWith (s pat : Str) : Bool := List.isSuffixOf pat s

/-- JavaScript `a.includes(b)` (substring containment). -/
def jsIncludes : Str → Str → Bool
  | s, pat =>
    if List.isPrefixOf pat s then true
    else match s with
      | [] => false
      | _ :: rest => jsIncludes rest pat

/-- Parsed JSON values.  Numbers are modelled as integers (no claim depends on
float formatting); object fields keep the document's order, as JavaScript
`Object.entries` does. -/
inductive JSON where
  | null
  | bool (b : Bool)
  | num (n : Int)
  | str (s : Str)
  | arr (elems : List JSON)
  | obj (fields : List (Str × JSON))

/-- The scalar fields of a tree node built by `buildTree` in app.js. -/
structure NodeData where
  key : Str
  path : Str
  expanded : Bool
  selected : Bool
  isLeaf : Bool
  isArray : Bool
  isArrayItem : Bool
  arrayLength : Nat
  displayValue : Str
  valueType : Str
  originalIndex : Nat
deriving DecidableEq, Repr

/-- A tree node: the scalar data, the raw JSON value stored in the node's
`value` field (write-only in the source), and `children` (`none` models the
JavaScript `null`). -/
inductive JNode where
  | node (d : NodeData) (value : JSON) (children : Option (List JNode))

def JNode.d : JNode → NodeData
  | .node d _ _ => d

def JNode.val : JNode → JSON
  | .node _ v _ => v

def JNode.children : JNode → Option (List JNode)
  | .node _ _ c => c

/-- The node's children as a list; both `null` and `[]` traverse as nothing. -/
def JNode.childrenL : JNode → List JNode
  | .node _ _ none => []
  | .node _ _ (some l) => l

def JNode.path (n : JNode) : Str := n.d.path

def JNode.key (n : JNode) : Str := n.d.key

def JNode.selected (n : JNode) : Bool := n.d.selected

def JNode.isLeaf (n : JNode) : Bool := n.d.isLeaf

def JNode.isArray (n : JNode) : Bool := n.d.isArray

/-- app.js `formatValue` (leaf display text).  Strings longer than 30
characters are truncated with an ellipsis inside the quotes. -/
def formatValue : JSON → Str
  | .null => strL ("null")
  | .str s => if s.length > 30
      then [('"')] ++ s.take 30 ++ [('…'), ('"')]
      else [('"')] ++ s ++ [('"')]
  | .bool b => if b then strL ("true") else strL ("false")
  | .num n => (Int.repr n).toList
  | .arr _ => []
  | .obj _ => []

/-- app.js `getValueType`. -/
def getValueType : JSON → Str
  | .null => strL ("null")
  | .str _ => strL ("str")
  | .num _ => strL ("num")
  | .bool _ => strL ("bool")
  | _ => []

/-- Build the `NodeData` common to every branch of `buildTree`. -/
def mkData (key path : Str) (isArrayItem : Bool) (originalIndex : Nat) : NodeData :=
  { key := key
    path := path
    expanded := path = strL (".")
    selected := false
    isLeaf := false
    isArray := false
    isArrayItem := isArrayItem
    arrayLength := 0
    displayValue := []
    valueType := []
    originalIndex := originalIndex }

mutual
/-- app.js `buildTree(data, key, path, isArrayItem, originalIndex)`.

Faithful to the JavaScript, `typeof` included: `typeof null === 'object'`, so
an array whose first element is `null` reaches `Object.entries(null)`, which
throws a `TypeError` — modelled by `none`.  An array whose first element is an
array gets per-index children (JavaScript `Object.entries` of an array yields
index/value pairs); an array whose first element is a non-object gets no
children.  An object child's path is `path + "." + key` (just `"." + key` at
the root); an array-template child's path is `path + "[]." + key`. -/
def buildTree (v : JSON) (key path : Str) (isArrayItem : Bool) (originalIndex : Nat) :
    Option JNode :=
  match v with
  | .arr elems =>
    let d0 := mkData key path isArrayItem originalIndex
    let d := { d0 with isArray := true, arrayLength := elems.length }
    match elems with
    | [] => some (.node d (.arr elems) none)
    | h :: _ =>
      match h with
      | .null => none
      | .obj kvs =>
        match buildObjKids kvs (path ++ strL ("[].")) true 0 with
        | none => none
        | some cs => some (.node d (.arr elems) (some cs))
      | .arr l =>
        match buildArrKids l (path ++ strL ("[].")) 0 with
        | none => none
        | some cs => some (.node d (.arr elems) (some cs))
      | _ => some (.node d (.arr elems) none)
  | .obj kvs =>
    let d := mkData key path isArrayItem originalIndex
    let pref := if path = strL (".") then strL (".") else path ++ strL (".")
    match buildObjKids kvs pref isArrayItem 0 with
    | none => none
    | some cs => some (.node d (.obj kvs) (some cs))
  | s =>
    let d0 := mkData key path isArrayItem originalIndex
    let d := { d0 with isLeaf := true, displayValue := formatValue s,
                       valueType := getValueType s }
    some (.node d s none)

/-- Children of an object (or object-headed array template): one per field, in
field order; the child path is `pref ++ fieldName`. -/
def buildObjKids (kvs : List (Str × JSON)) (pref : Str) (isArrayItem : Bool)
    (idx : Nat) : Option (List JNode) :=
  match kvs with
  | [] => some []
  | (k, v) :: rest =>
    match buildTree v k (pref ++ k) isArrayItem idx with
    | none => none
    | some n =>
      match buildObjKids rest pref isArrayItem (idx + 1) with
      | none => none
      | some ns => some (n :: ns)

/-- Children of an array-headed array template: `Object.entries` of an array
yields index keys `"0"`, `"1"`, …. -/
def buildArrKids (l : List JSON) (pref : Str) (idx : Nat) : Option (List JNode) :=
  match l with
  | [] => some []
  | v :: rest =>
    let k := (Nat.repr idx).toList
    match buildTree v k (pref ++ k) true idx with
    | none => none
    | some n =>
      match buildArrKids rest pref (idx + 1) with
      | none => none
      | some ns => some (n :: ns)
end

/-- The tree as built on load: `buildTree(rawData)` with default arguments. -/
def buildRoot (v : JSON) : Option JNode :=
  buildTree v (strL ("root")) (strL (".")) false 0

/-! ## Mutation engine (app.js `handleReorder`, `handleMoveInto` and helpers) -/

mutual
/-- app.js `findNodeByPath`: pre-order first match on `path`. -/
def findNodeByPath : JNode → Str → Option JNode
  | .node d v c, p =>
    if d.path = p then some (.node d v c)
    else match c with
      | none => none
      | some l => findNodeInList l p
def findNodeInList : List JNode → Str → Option JNode
  | [], _ => none
  | c :: cs, p =>
    match findNodeByPath c p with
    | some r => some r
    | none => findNodeInList cs p
end

mutual
/-- Removal of the first node (in `findParentOfNode`'s pre-order) whose path is
`p` from a child list, returning the spliced list and the removed node. -/
def removeFromList : List JNode → Str → Option (List JNode × JNode)
  | [], _ => none
  | c :: cs, p =>
    if c.path = p then some (cs, c)
    else match removeInNode c p with
      | some (c1, r) => some (c1 :: cs, r)
      | none =>
        match removeFromList cs p with
        | some (cs1, r) => some (c :: cs1, r)
        | none => none
def removeInNode : JNode → Str → Option (JNode × JNode)
  | .node _ _ none, _ => none
  | .node d v (some l), p =>
    match removeFromList l p with
    | some (l1, r) => some (.node d v (some l1), r)
    | none => none
end

/-- app.js `findParentOfNode` + `splice`: removes the node at `p` from the
tree; `none` when `p` is the root's own path (parent `null`) or absent. -/
def removeNodeAt (root : JNode) (p : Str) : Option (JNode × JNode) :=
  if root.path = p then none else removeInNode root p

mutual
/-- app.js `updateNodePaths`: rewrite the moved subtree's paths under a new
base; an array node's children get a `[].` segment, others a `.` segment. -/
def updateNodePaths : JNode → Str → JNode
  | .node d v none, newBase =>
    .node { d with path := newBase, isArrayItem := jsIncludes newBase (strL ("[]")) } v none
  | .node d v (some l), newBase =>
    let d1 := { d with path := newBase, isArrayItem := jsIncludes newBase (strL ("[]")) }
    .node d1 v (some (updateKidsPaths l newBase d.isArray))
def updateKidsPaths : List JNode → Str → Bool → List JNode
  | [], _, _ => []
  | c :: cs, base, isArr =>
    let childPath := if isArr then base ++ strL ("[].") ++ c.key
                     else base ++ strL (".") ++ c.key
    updateNodePaths c childPath :: updateKidsPaths cs base isArr
end

mutual
/-- Append `m` to the children of the first (pre-order) node whose path is `p`
and expand it (the source pushes into `targetNode` by reference; the node is
resolved here by its address).  The Bool reports whether the target was found. -/
def pushIntoTargetN : JNode → Str → JNode → JNode × Bool
  | .node d v c, p, m =>
    if d.path = p then
      let l := match c with | none => [] | some l => l
      (.node { d with expanded := true } v (some (l ++ [m])), true)
    else match c with
      | none => (.node d v c, false)
      | some l =>
        let r := pushIntoTargetL l p m
        (.node d v (some r.1), r.2)
def pushIntoTargetL : List JNode → Str → JNode → List JNode × Bool
  | [], _, _ => ([], false)
  | c :: cs, p, m =>
    let r := pushIntoTargetN c p m
    if r.2 then (r.1 :: cs, true)
    else
      let rs := pushIntoTargetL cs p m
      (c :: rs.1, rs.2)
end

/-- A `movedNodes` entry of app.js `handleMoveInto`:
`{ fromPath, toPath, key, originalPath }`. -/
structure MoveRec where
  fromPath : Str
  toPath : Str
  key : Str
  originalPath : Str
deriving DecidableEq, Repr

/-- app.js `handleMoveInto({fromPath, fromKey, targetNode})` as a pure function
on the tree and the `movedNodes` list.  The drop target node is resolved by
its address in the pre-move tree.  Steps, as in the source: locate the source
node (absent → no-op); locate its parent (root or absent → no-op); reject a
target equal to the source or reached from it through a `.` segment; splice
the node out; compute its new path (`[].` segment for an array target, `.`
segment otherwise); rewrite the subtree's paths; push a new record
`{fromPath, toPath, key, originalPath: fromPath}`; append the node to the
target's children and expand it. -/
def handleMoveInto (root : JNode) (moved : List MoveRec) (fromPath targetPath : Str) :
    JNode × List MoveRec :=
  match findNodeByPath root fromPath with
  | none => (root, moved)
  | some _ =>
    match removeNodeAt root fromPath with
    | none => (root, moved)
    | some (root1, movedNode) =>
      match findNodeByPath root targetPath with
      | none => (root, moved)
      | some targetNode =>
        if targetPath = fromPath ∨ jsStartsWith targetPath (fromPath ++ strL (".")) then
          (root, moved)
        else
          let newPath := if targetNode.isArray
            then targetPath ++ strL ("[].") ++ movedNode.key
            else targetPath ++ strL (".") ++ movedNode.key
          let movedNode1 := updateNodePaths movedNode newPath
          let moved1 := moved ++
            [{ fromPath := fromPath, toPath := targetPath, key := movedNode.key,
               originalPath := fromPath }]
          ((pushIntoTargetN root1 targetPath movedNode1).1, moved1)

/-- The `onDrop` handler's move-into path (TreeNode component): rejects a drop
onto the source itself or onto any address extending it through a `.` or `[`
character, and only emits `move-into` for a non-leaf target. -/
def onDropMoveInto (root : JNode) (moved : List MoveRec) (fromPath targetPath : Str) :
    JNode × List MoveRec :=
  if fromPath = targetPath then (root, moved)
  else if jsStartsWith targetPath (fromPath ++ strL (".")) ||
          jsStartsWith targetPath (fromPath ++ strL ("[")) then (root, moved)
  else match findNodeByPath root targetPath with
    | none => (root, moved)
    | some t => if t.isLeaf then (root, moved)
                else handleMoveInto root moved fromPath targetPath

/-- app.js `handleReorder({fromPath, toPath, insertAfter, parentChildren})` on
the sibling list: no-op when either address is absent from the list or the
indices coincide; otherwise splice out and reinsert. -/
def handleReorder (parentChildren : List JNode) (fromPath toPath : Str)
    (insertAfter : Bool) : List JNode :=
  match parentChildren.findIdx? (fun c => c.path = fromPath),
        parentChildren.findIdx? (fun c => c.path = toPath) with
  | some fromIdx, some toIdx =>
    if fromIdx = toIdx then parentChildren
    else
      let newIdx0 := if fromIdx < toIdx then toIdx - 1 else toIdx
      let newIdx := if insertAfter then newIdx0 + 1 else newIdx0
      match parentChildren[fromIdx]? with
      | none => parentChildren
      | some movedN => (parentChildren.eraseIdx fromIdx).insertIdx newIdx movedN
  | _, _ => parentChildren

mutual
/-- app.js `selectNode` resolved by address: toggle `selected` on the first
pre-order node whose path is `p`. -/
def toggleSelectN : JNode → Str → JNode × Bool
  | .node d v c, p =>
    if d.path = p then (.node { d with selected := !d.selected } v c, true)
    else match c with
      | none => (.node d v c, false)
      | some l =>
        let r := toggleSelectL l p
        (.node d v (some r.1), r.2)
def toggleSelectL : List JNode → Str → List JNode × Bool
  | [], _ => ([], false)
  | c :: cs, p =>
    let r := toggleSelectN c p
    if r.2 then (r.1 :: cs, true)
    else
      let rs := toggleSelectL cs p
      (c :: rs.1, rs.2)
end

def toggleSelect (n : JNode) (p : Str) : JNode := (toggleSelectN n p).1

/-! ## Selection tracker (app.js `collectSelected`) -/

/-- The synthesized new-address prefix of a MoveRecord used by
`collectSelected`: `toPath + "[]." + key` when `toPath` ends in `[]` (it never
does: node addresses carry `[]` only before a `.key` suffix), otherwise
`toPath + "." + key`. -/
def recPref (m : MoveRec) : Str :=
  if jsEndsWith m.toPath (strL ("[]"))
  then m.toPath.take (m.toPath.length - 2) ++ strL ("[].") ++ m.key
  else m.toPath ++ strL (".") ++ m.key

/-- A collected selection entry of app.js `collectSelected`. -/
structure SEntry where
  path : Str
  sourcePath : Str
  key : Str
  originalIndex : Nat
  order : Nat
  isMoved : Bool
deriving DecidableEq, Repr

/-- The source-path resolution inside `collectSelected`: the first MoveRecord
(in list order — the loop `break`s) whose `recPref` prefixes the display path
rewrites it to `originalPath + suffix`; otherwise the display path stands. -/
def resolveSource (moved : List MoveRec) (p : Str) : Str × Bool :=
  match moved.find? (fun m => jsStartsWith p (recPref m)) with
  | some m => (m.originalPath ++ p.drop (recPref m).length, true)
  | none => (p, false)

mutual
/-- app.js `collectSelected`: depth-first pre-order walk pushing one entry per
selected leaf, threading the `orderCounter`. -/
def collectSel (moved : List MoveRec) : JNode → List SEntry × Nat → List SEntry × Nat
  | .node d _ c, acc =>
    let acc1 := if d.selected && d.isLeaf then
        let r := resolveSource moved d.path
        (acc.1 ++ [{ path := d.path, sourcePath := r.1, key := d.key,
                     originalIndex := d.originalIndex, order := acc.2,
                     isMoved := r.2 }], acc.2 + 1)
      else acc
    match c with
    | none => acc1
    | some l => collectSelL moved l acc1
def collectSelL (moved : List MoveRec) : List JNode → List SEntry × Nat → List SEntry × Nat
  | [], acc => acc
  | c :: cs, acc => collectSelL moved cs (collectSel moved c acc)
end

def collectSelected (moved : List MoveRec) (root : JNode) : List SEntry :=
  (collectSel moved root ([], 0)).1

mutual
/-- app.js `hasSelectedLeaf` (from `collapseEmpty`): whether any selected leaf
exists in the subtree. -/
def hasSelectedLeaf : JNode → Bool
  | .node d _ none => d.isLeaf && d.selected
  | .node d _ (some l) =>
    if d.isLeaf then d.selected else hasSelectedLeafL l
def hasSelectedLeafL : List JNode → Bool
  | [] => false
  | c :: cs => hasSelectedLeaf c || hasSelectedLeafL cs
end

/-! ## Expression synthesizer (app.js `buildNestedExpr` and helpers) -/

/-- One step of the segment tokenizer modelling the source's regex
`/([^.\[\]]+)(\[\])?\.?/g`: separator characters `.`, `[`, `]` delimit names;
a name immediately followed by `[]` becomes one `name[]` segment. -/
def isSepC (c : Char) : Bool := c = ('.') || c = ('[') || c = (']')

def segsGo : List Char → Str → List Str
  | [], acc => if acc.isEmpty then [] else [acc]
  | '[' :: ']' :: rest, acc =>
    if acc.isEmpty then segsGo rest []
    else (acc ++ strL ("[]")) :: segsGo rest []
  | c :: cs, acc =>
    if isSepC c then
      if acc.isEmpty then segsGo cs [] else acc :: segsGo cs []
    else segsGo cs (acc ++ [c])

/-- Segments of an address after dropping its leading character (`slice(1)`),
as parsed in `buildNestedExpr`. -/
def segsOf (p : Str) : List Str := segsGo (p.drop 1) []

/-- A parsed path of `buildNestedExpr` (`sourceSegments` is computed by the
source but never read afterwards). -/
structure PEntry where
  displaySegments : List Str
  sourceSegments : List Str
  key : Str
  path : Str
  sourcePath : Str
  order : Nat
  isMoved : Bool
deriving DecidableEq, Repr

def parseEntry (p : SEntry) : PEntry :=
  { displaySegments := segsOf p.path
    sourceSegments := segsOf p.sourcePath
    key := p.key
    path := p.path
    sourcePath := p.sourcePath
    order := p.order
    isMoved := p.isMoved }

/-- The trie built over display segments: a JavaScript `Map` entry is either
`{leaf: true, sourcePath, order, isMoved}` or `{children, order}`. -/
inductive TrieV where
  | leafV (sourcePath : Str) (ord : Nat) (isMoved : Bool)
  | branchV (ord : Nat) (children : List (Str × TrieV))
deriving Repr

def ordOfT : TrieV → Nat
  | .leafV _ o _ => o
  | .branchV o _ => o

/-- `Map.set`: an existing key keeps its position; a new key is appended. -/
def mset : List (Str × α) → Str → α → List (Str × α)
  | [], k, v => [(k, v)]
  | (k1, v1) :: rest, k, v =>
    if k1 = k then (k, v) :: rest else (k1, v1) :: mset rest k v

def mget : List (Str × α) → Str → Option α
  | [], _ => none
  | (k1, v1) :: rest, k => if k1 = k then some v1 else mget rest k

/-- One path inserted into the trie of `buildTreeWithOrder`: the last segment
becomes (or overwrites as) a leaf; an intermediate segment that is absent or a
leaf is replaced by a fresh branch carrying the inserting path's order. -/
def trieInsert : List (Str × TrieV) → List Str → Str → Nat → Bool → List (Str × TrieV)
  | t, [], _, _, _ => t
  | t, [s], sp, ord, mv => mset t s (.leafV sp ord mv)
  | t, s :: s2 :: rest, sp, ord, mv =>
    match mget t s with
    | some (.branchV o cs) => mset t s (.branchV o (trieInsert cs (s2 :: rest) sp ord mv))
    | _ => mset t s (.branchV ord (trieInsert [] (s2 :: rest) sp ord mv))

def buildTreeWithOrder (paths : List PEntry) : List (Str × TrieV) :=
  paths.foldl (fun t p => trieInsert t p.displaySegments p.sourcePath p.order p.isMoved) []

/-- Stable ascending insertion by the `Nat` key: models the stable JavaScript
`Array.prototype.sort` with comparator `(a, b) => orderA - orderB`. -/
def insOrd (x : Nat × α) : List (Nat × α) → List (Nat × α)
  | [] => [x]
  | y :: ys => if x.1 ≤ y.1 then x :: y :: ys else y :: insOrd x ys

def sortOrd : List (Nat × α) → List (Nat × α)
  | [] => []
  | x :: xs => insOrd x (sortOrd xs)

/-- Assemble an object-construction string out of `(order, part)` pairs, as at
the end of `treeToExpr`: empty trie renders as the empty string.  The source
sorts the entries and then renders each one; since rendering an entry does not
depend on its position and the sort is stable, rendering first and sorting the
rendered parts by the same key is the same composition. -/
def glueObj (parts : List (Nat × Str)) : Str :=
  if parts.isEmpty then []
  else [('{')] ++ List.intercalate (strL (", ")) ((sortOrd parts).map (·.2)) ++ [('}')]

/-- As `glueObj` but for `fieldTreeToExpr`, which has no empty-map guard and
renders an empty trie as `{}`. -/
def glueObjF (parts : List (Nat × Str)) : Str :=
  [('{')] ++ List.intercalate (strL (", ")) ((sortOrd parts).map (·.2)) ++ [('}')]

def quoteKey (parts : List Str) : Str :=
  [('"')] ++ List.intercalate (strL (".")) parts ++ [('"')]

mutual
/-- The `(order, rendered part)` pairs of one trie level in app.js
`treeToExpr`. -/
def treeParts (compress useRoot : Bool) : List (Str × TrieV) → List (Nat × Str)
  | [] => []
  | (k, v) :: rest =>
    (ordOfT v, entryToStr compress useRoot k v) :: treeParts compress useRoot rest

/-- One entry of `treeToExpr`: a leaf renders `key: [$root]sourcePath`; a
branch with a single child starts the compression walk when compression is on,
otherwise recurses into a nested object. -/
def entryToStr (compress useRoot : Bool) (k : Str) : TrieV → Str
  | .leafV sp _ mv =>
    k ++ strL (": ") ++ (if mv && useRoot then strL ("$root") else []) ++ sp
  | .branchV _ [(ck, cv)] =>
    if compress then compressWalk compress useRoot [k] ck cv
    else k ++ strL (": ") ++ glueObj (treeParts compress useRoot [(ck, cv)])
  | .branchV _ cs => k ++ strL (": ") ++ glueObj (treeParts compress useRoot cs)

/-- The `while (current && current.size === 1)` walk of `treeToExpr`: collapse
a chain of single-child levels into one quoted dotted key, stopping at a leaf
or at the first level with several children. -/
def compressWalk (compress useRoot : Bool) (pathParts : List Str) (ck : Str) :
    TrieV → Str
  | .leafV sp _ mv =>
    quoteKey (pathParts ++ [ck]) ++ strL (": ")
      ++ (if mv && useRoot then strL ("$root") else []) ++ sp
  | .branchV _ [(ck2, cv2)] => compressWalk compress useRoot (pathParts ++ [ck]) ck2 cv2
  | .branchV _ ccs => quoteKey (pathParts ++ [ck]) ++ strL (": ")
      ++ glueObj (treeParts compress useRoot ccs)
end

/-- app.js `treeToExpr(tree, useRoot)` with the `compressPath` toggle made
explicit. -/
def treeToExpr (compress useRoot : Bool) (t : List (Str × TrieV)) : Str :=
  glueObj (treeParts compress useRoot t)

/-- The relative-path rewrite for a non-moved field inside an array group:
strip the array base from the source path and ensure a leading dot. -/
def relOf (base sp : Str) : Str :=
  if !base.isEmpty && jsStartsWith sp base then
    let r := sp.drop base.length
    if jsStartsWith r (strL (".")) then r else strL (".") ++ r
  else sp

mutual
/-- The `(order, rendered part)` pairs of one trie level in app.js
`fieldTreeToExpr` (inside `buildArrayExpr`). -/
def fieldParts (compress useRoot : Bool) (base : Str) : List (Str × TrieV) → List (Nat × Str)
  | [] => []
  | (k, v) :: rest =>
    (ordOfT v, fieldEntryToStr compress useRoot base k v) :: fieldParts compress useRoot base rest

/-- One entry of `fieldTreeToExpr`: a moved leaf reads through `$root` from its
absolute source path; a normal leaf reads the source path relative to the
array base. -/
def fieldEntryToStr (compress useRoot : Bool) (base : Str) (k : Str) : TrieV → Str
  | .leafV sp _ mv =>
    if mv then k ++ strL (": ") ++ (if useRoot then strL ("$root") else []) ++ sp
    else k ++ strL (": ") ++ relOf base sp
  | .branchV _ [(ck, cv)] =>
    if compress then fieldCompressWalk compress useRoot base [k] ck cv
    else k ++ strL (": ") ++ glueObjF (fieldParts compress useRoot base [(ck, cv)])
  | .branchV _ cs => k ++ strL (": ") ++ glueObjF (fieldParts compress useRoot base cs)

/-- The compression walk of `fieldTreeToExpr`. -/
def fieldCompressWalk (compress useRoot : Bool) (base : Str) (pathParts : List Str)
    (ck : Str) : TrieV → Str
  | .leafV sp _ mv =>
    if mv then quoteKey (pathParts ++ [ck]) ++ strL (": ")
        ++ (if useRoot then strL ("$root") else []) ++ sp
    else quoteKey (pathParts ++ [ck]) ++ strL (": ") ++ relOf base sp
  | .branchV _ [(ck2, cv2)] =>
    fieldCompressWalk compress useRoot base (pathParts ++ [ck]) ck2 cv2
  | .branchV _ ccs => quoteKey (pathParts ++ [ck]) ++ strL (": ")
      ++ glueObjF (fieldParts compress useRoot base ccs)
end

/-- app.js `fieldTreeToExpr(tree, currentArrayBase)`. -/
def fieldTreeToExpr (compress useRoot : Bool) (base : Str) (t : List (Str × TrieV)) : Str :=
  glueObjF (fieldParts compress useRoot base t)

/-- One item's suffix segments inserted into the field trie of
`buildArrayExpr`.  Unlike `trieInsert`, an intermediate segment already present
as a leaf is left alone and the walk stays at the same map (the source only
reassigns `node` when the existing entry has `children`), so the remaining
segments land beside it. -/
def ftInsert : List (Str × TrieV) → List Str → Str → Bool → Nat → List (Str × TrieV)
  | t, [], _, _, _ => t
  | t, [s], sp, mv, ord => mset t s (.leafV sp ord mv)
  | t, s :: s2 :: rest, sp, mv, ord =>
    match mget t s with
    | none => mset t s (.branchV ord (ftInsert [] (s2 :: rest) sp mv ord))
    | some (.branchV o cs) => mset t s (.branchV o (ftInsert cs (s2 :: rest) sp mv ord))
    | some (.leafV _ _ _) => ftInsert t (s2 :: rest) sp mv ord

/-- An item pushed into an array group of `buildArrayExpr`. -/
structure GItem where
  rest : List Str
  sourcePath : Str
  order : Nat
  isMoved : Bool
deriving DecidableEq, Repr

/-- Append to the (insertion-ordered) group keyed by the base address. -/
def gpush : List (Str × List GItem) → Str → GItem → List (Str × List GItem)
  | [], k, x => [(k, [x])]
  | (k1, l) :: rest, k, x =>
    if k1 = k then (k1, l ++ [x]) :: rest else (k1, l) :: gpush rest k x

/-- Index after the first display segment carrying the `[]` marker (the
JavaScript `findIndex` result plus one; `0` when absent, matching `-1 + 1`). -/
def arrCut (segs : List Str) : Nat :=
  match segs.findIdx? (fun s => jsEndsWith s (strL ("[]"))) with
  | some i => i + 1
  | none => 0

/-- JavaScript `s.replace(pat, '')` — remove the first occurrence only. -/
def replaceOnce : Str → Str → Str
  | s, pat =>
    if List.isPrefixOf pat s then s.drop pat.length
    else match s with
      | [] => []
      | c :: cs => c :: replaceOnce cs pat

/-- The shared array-base address of a display-segment list:
`'.' + parts-with-[]-removed joined by '.' + '[]'`. -/
def baseOf (segs : List Str) : Str :=
  strL (".")
    ++ List.intercalate (strL ("."))
        ((segs.take (arrCut segs)).map (fun s => replaceOnce s (strL ("[]"))))
    ++ strL ("[]")

/-- JavaScript `s.lastIndexOf(pat)` as an `Option`. -/
def lastIndexOfStr (s pat : Str) : Option Nat :=
  ((List.range (s.length + 1)).filter (fun i => List.isPrefixOf pat (s.drop i))).getLast?

/-- The enclosing object segments of an array base: the part before the last
`[]`, minus its leading character, split on dots, empties dropped. -/
def parentSegsOf (base : Str) : List Str :=
  let parentPath := match lastIndexOfStr base (strL ("[]")) with
    | some i => base.take i
    | none => base.take (base.length - 1)
  (List.splitOn ('.') (parentPath.drop 1)).filter (fun s => !s.isEmpty)

def buildGroups (paths : List PEntry) : List (Str × List GItem) :=
  paths.foldl (fun g p =>
    gpush g (baseOf p.displaySegments)
      { rest := p.displaySegments.drop (arrCut p.displaySegments)
        sourcePath := p.sourcePath
        order := p.order
        isMoved := p.isMoved }) []

/-- One group's expression in `buildArrayExpr`: items sorted by order, folded
into a field trie, rendered, then wrapped in the list construction over the
array base and in the enclosing object segments. -/
def groupExpr (compress useRoot : Bool) (base : Str) (items : List GItem) : Str :=
  let sorted := (sortOrd (items.map (fun it => (it.order, it)))).map (·.2)
  let ft := sorted.foldl (fun t it => ftInsert t it.rest it.sourcePath it.isMoved it.order) []
  let inner := fieldTreeToExpr compress useRoot base ft
  let ps := parentSegsOf base
  if ps.isEmpty then strL ("[.[] | ") ++ inner ++ strL ("]")
  else ps.foldr (fun seg acc => [('{')] ++ seg ++ strL (": ") ++ acc ++ [('}')])
      ([('[')] ++ base ++ strL (" | ") ++ inner ++ strL ("]"))

def buildArrayExpr (compress useRoot : Bool) (paths : List PEntry) : List Str :=
  (buildGroups paths).map (fun g => groupExpr compress useRoot g.1 g.2)

/-- The fragment list of `buildNestedExpr`: the plain-path object expression
(when plain paths exist) followed by the array-group expressions (when
array-scoped paths exist). -/
def synthResults (compress hasMoved : Bool) (paths : List SEntry) : List Str :=
  let parsed := paths.map parseEntry
  let arrayPaths := parsed.filter (fun p => p.displaySegments.any (fun s => jsEndsWith s (strL ("[]"))))
  let nonArrayPaths := parsed.filter (fun p => !p.displaySegments.any (fun s => jsEndsWith s (strL ("[]"))))
  (if nonArrayPaths.isEmpty then []
   else [treeToExpr compress hasMoved (buildTreeWithOrder nonArrayPaths)])
  ++ (if arrayPaths.isEmpty then [] else buildArrayExpr compress hasMoved arrayPaths)

/-- The fragment merge of `buildNestedExpr`: a single fragment stands alone,
several are joined with the `*` operator, none yield the identity. -/
def mergeResults (results : List Str) : Str :=
  match results with
  | [] => strL (".")
  | [r] => r
  | _ => List.intercalate (strL (" * ")) results

/-- The tail of `buildNestedExpr`: merge the fragments and prefix the `$root`
binding when a relocated entry exists and the expression is not the bare
identity. -/
def finalAssemble (hasMoved : Bool) (results : List Str) : Str :=
  if hasMoved && mergeResults results ≠ strL (".")
  then strL (". as $root | ") ++ mergeResults results
  else mergeResults results

/-- app.js `buildNestedExpr(paths)`: partition into array-scoped and plain
paths, render each fragment, join with the merge operator, and bind `$root`
when any entry is relocated. -/
def buildNestedExpr (compress : Bool) (paths : List SEntry) : Str :=
  finalAssemble (paths.any (·.isMoved))
    (synthResults compress (paths.any (·.isMoved)) paths)

/-- app.js `updateExpression`: the identity expression on an empty selection,
otherwise `buildNestedExpr` on the collected entries. -/
def updateExpression (compress : Bool) (moved : List MoveRec) (root : JNode) : Str :=
  let selected := collectSelected moved root
  if selected.isEmpty then strL (".") else buildNestedExpr compress selected

/-! ## Result serialization (src/internal/jq/builder.go) -/

def goWS (c : Char) : Bool := c = (' ') || c = ('\t') || c = ('\n') || c = ('\r')

/-- Go `strings.TrimSpace` (over the whitespace the expressions contain). -/
def goTrimSpace (s : Str) : Str :=
  ((s.dropWhile goWS).reverse.dropWhile goWS).reverse

/-- builder.go `extractFieldOrder`: the text between the last `{` and the last
`}` of the expression, split on commas, each part trimmed and cut at its first
colon; empty (Go `nil`) when either brace is missing or they are inverted. -/
def extractFieldOrder (expr : Str) : List Str :=
  match lastIndexOfStr expr (strL ("\x7b")), lastIndexOfStr expr (strL ("\x7d")) with
  | some start, some stop =>
    if stop ≤ start then []
    else
      let content := (expr.take stop).drop (start + 1)
      (List.splitOn (',') content).map (fun p =>
        let q := goTrimSpace p
        match q.findIdx? (fun c => c = (':')) with
        | some i => goTrimSpace (q.take i)
        | none => q)
  | _, _ => []

/-- The position a key gets in builder.go's `orderMap` (the loop overwrites,
so a duplicated field keeps its last index). -/
def lastIdxOf (fields : List Str) (k : Str) : Option Nat :=
  match fields.reverse.findIdx? (fun f => f = k) with
  | some j => some (fields.length - 1 - j)
  | none => none

/-- Go byte-wise `<` on strings. -/
def lexLt : Str → Str → Bool
  | [], [] => false
  | [], _ :: _ => true
  | _ :: _, [] => false
  | a :: as1, b :: bs => if a = b then lexLt as1 bs else decide (a < b)

/-- The comparator of builder.go `orderKeys`: keys present in `fieldOrder`
come first, ordered by position; the rest are ordered lexically. -/
def goLess (fields : List Str) (a b : Str) : Bool :=
  match lastIdxOf fields a, lastIdxOf fields b with
  | some pa, some pb => decide (pa < pb)
  | some _, none => true
  | none, some _ => false
  | none, none => lexLt a b

def insGo (fields : List Str) (x : Str) : List Str → List Str
  | [] => [x]
  | y :: ys => if goLess fields x y then x :: y :: ys else y :: insGo fields x ys

def sortGo (fields : List Str) : List Str → List Str
  | [] => []
  | x :: xs => insGo fields x (sortGo fields xs)

/-- builder.go `orderKeys`: sort the object's keys by `goLess`.  The source
uses the unstable `sort.Slice`, but on the distinct keys of a Go map the
comparator is a strict total order, so every sort agrees with this one. -/
def orderKeys (m : List (Str × JSON)) (fields : List Str) : List Str :=
  sortGo fields (m.map (·.1))

/-- Insertion of a keyed pair under a comparator on keys. -/
def insByKey (cmp : Str → Str → Bool) (x : Str × α) : List (Str × α) → List (Str × α)
  | [] => [x]
  | y :: ys => if cmp x.1 y.1 then x :: y :: ys else y :: insByKey cmp x ys

def sortByKey (cmp : Str → Str → Bool) : List (Str × α) → List (Str × α)
  | [] => []
  | x :: xs => insByKey cmp x (sortByKey cmp xs)

def indentOf (n : Nat) : Str := List.replicate (2 * n) (' ')

/-- Scalar serialization (Go `json.Marshal` on a leaf value; string escaping
is not modelled — no claim involves special characters inside values). -/
def scalarJSON : JSON → Str
  | .null => strL ("null")
  | .bool b => if b then strL ("true") else strL ("false")
  | .num n => (Int.repr n).toList
  | .str s => [('"')] ++ s ++ [('"')]
  | .arr _ => []
  | .obj _ => []

/-- Emit `"k": v` lines out of already-rendered (key, value) pairs. -/
def glueKeyLines (indent : Nat) (first : Bool) : List (Str × Str) → Str
  | [] => []
  | (k, r) :: rest =>
    (if first then [] else [(','), ('\n')])
      ++ indentOf (indent + 1) ++ [('"')] ++ k ++ [('"')] ++ strL (": ") ++ r
      ++ glueKeyLines indent false rest

mutual
/-- builder.go `writeOrderedJSON`: an object emits its keys in `orderKeys`
order with the same `fieldOrder` applied at every nesting level; arrays
recurse element-wise.  The source sorts the keys and then renders each looked
up value; since a Go map's keys are distinct and rendering one entry does not
depend on its position, rendering the entries first and sorting the rendered
pairs by the same comparator is the same composition (the emitted key sequence
is exactly `orderKeys`). -/
def writeOrderedJSON (v : JSON) (fields : List Str) (indent : Nat) : Str :=
  match v with
  | .obj kvs =>
    [('{'), ('\n')]
      ++ glueKeyLines indent true
          (sortByKey (goLess fields) (writeOrderedPairs kvs fields indent))
      ++ [('\n')] ++ indentOf indent ++ [('}')]
  | .arr elems =>
    [('['), ('\n')]
      ++ writeOrderedElems elems fields indent true
      ++ [('\n')] ++ indentOf indent ++ [(']')]
  | s => scalarJSON s

def writeOrderedPairs (kvs : List (Str × JSON)) (fields : List Str) (indent : Nat) :
    List (Str × Str) :=
  match kvs with
  | [] => []
  | (k, v) :: rest =>
    (k, writeOrderedJSON v fields (indent + 1)) :: writeOrderedPairs rest fields indent

def writeOrderedElems (elems : List JSON) (fields : List Str) (indent : Nat)
    (first : Bool) : Str :=
  match elems with
  | [] => []
  | e :: rest =>
    (if first then [] else [(','), ('\n')])
      ++ indentOf (indent + 1)
      ++ writeOrderedJSON e fields (indent + 1)
      ++ writeOrderedElems rest fields indent false
end

mutual
/-- Go `json.MarshalIndent(data, "", "  ")`, modelled from the standard
library's documented behavior: object keys in lexical order, two-space
indentation, `{}` / `[]` for empty composites. -/
def stdMarshal (v : JSON) (indent : Nat) : Str :=
  match v with
  | .obj [] => strL ("{}")
  | .obj kvs =>
    [('{'), ('\n')]
      ++ glueKeyLines indent true (sortByKey lexLt (stdMarshalPairs kvs indent))
      ++ [('\n')] ++ indentOf indent ++ [('}')]
  | .arr [] => strL ("[]")
  | .arr elems =>
    [('['), ('\n')]
      ++ stdMarshalElems elems indent true
      ++ [('\n')] ++ indentOf indent ++ [(']')]
  | s => scalarJSON s

def stdMarshalPairs (kvs : List (Str × JSON)) (indent : Nat) : List (Str × Str) :=
  match kvs with
  | [] => []
  | (k, v) :: rest => (k, stdMarshal v (indent + 1)) :: stdMarshalPairs rest indent

def stdMarshalElems (elems : List JSON) (indent : Nat) (first : Bool) : Str :=
  match elems with
  | [] => []
  | e :: rest =>
    (if first then [] else [(','), ('\n')])
      ++ indentOf (indent + 1)
      ++ stdMarshal e (indent + 1)
      ++ stdMarshalElems rest indent false
end

/-- builder.go `marshalOrdered`: standard marshalling when no field order was
extracted, the ordered writer otherwise. -/
def marshalOrdered (v : JSON) (fields : List Str) : Str :=
  if fields.isEmpty then stdMarshal v 0 else writeOrderedJSON v fields 0

/-- The serialization tail of builder.go `Execute` (the gojq evaluation that
produces `results` is the external query engine): a single result is
marshalled alone, several as an array, none as Go's `nil` slice (`null`),
each under the field order extracted from the expression text. -/
def executeSerialize (expr : Str) (results : List JSON) : Str :=
  let fields := extractFieldOrder expr
  match results with
  | [r] => marshalOrdered r fields
  | [] => marshalOrdered .null fields
  | rs => marshalOrdered (.arr rs) fields

/-! ## Structural infrastructure for the theorems -/

/-- `OccursIn m n`: `m` is `n` itself or a node of `n`'s subtree. -/
inductive OccursIn : JNode → JNode → Prop where
  | refl (n : JNode) : OccursIn n n
  | child {m c n : JNode} : OccursIn m c → c ∈ n.childrenL → OccursIn m n

/-- The address discipline linking a node to one of its children, as
established by `buildTree`: an array child path appends `[].key`, an object
child path appends `.key`, and the root (path `"."`) prepends just `.key`. -/
def EdgeOk (n c : JNode) : Prop :=
  c.path = n.path ++ strL ("[].") ++ c.key
  ∨ (n.path ≠ strL (".") ∧ c.path = n.path ++ strL (".") ++ c.key)
  ∨ (n.path = strL (".") ∧ c.path = strL (".") ++ c.key)

/-- Every node's path starts with a dot and every edge satisfies `EdgeOk`. -/
inductive PathsOk : JNode → Prop where
  | intro {n : JNode} :
      jsStartsWith n.path (strL (".")) = true →
      (∀ c, c ∈ n.childrenL → EdgeOk n c) →
      (∀ c, c ∈ n.childrenL → PathsOk c) →
      PathsOk n

theorem PathsOk.head {n : JNode} (h : PathsOk n) :
    jsStartsWith n.path (strL (".")) = true := by
  cases h with
  | intro h1 _ _ => exact h1

theorem PathsOk.edge {n : JNode} (h : PathsOk n) :
    ∀ c, c ∈ n.childrenL → EdgeOk n c := by
  cases h with
  | intro _ h2 _ => exact h2

theorem PathsOk.kid {n : JNode} (h : PathsOk n) :
    ∀ c, c ∈ n.childrenL → PathsOk c := by
  cases h with
  | intro _ _ h3 => exact h3

theorem jsStartsWith_iff {s pat : Str} : jsStartsWith s pat = true ↔ pat <+: s := by
  simp [jsStartsWith, List.isPrefixOf_iff_prefix]

theorem length_ge_two_of_ne_dot {p : Str} (h1 : jsStartsWith p (strL (".")) = true)
    (h2 : p ≠ strL (".")) : 2 ≤ p.length := by
  rw [jsStartsWith_iff] at h1
  obtain ⟨t, ht⟩ := h1
  cases t with
  | nil => exact absurd ht.symm (by simpa [strL] using h2)
  | cons a t2 => rw [← ht]; simp [strL]

/-- A non-root node's strict subtree lies under its address extended through a
`.` or `[` character. -/
theorem pathsOk_descend :
    ∀ (m r : JNode), OccursIn m r → PathsOk r → r.path ≠ strL (".") →
    m = r ∨ jsStartsWith m.path (r.path ++ [('.')]) = true
        ∨ jsStartsWith m.path (r.path ++ [('[')]) = true := by
  intro m r hm
  induction hm with
  | refl => intro _ _; exact Or.inl rfl
  | @child c n hmc hcn ih =>
    intro hr hroot
    have hedge := hr.edge c hcn
    have hkid := hr.kid c hcn
    have hlen : 2 ≤ n.path.length := length_ge_two_of_ne_dot hr.head hroot
    -- the child's path extends n's path through `[` or `.`
    have hext : (n.path ++ [('[')]) <+: c.path ∨ (n.path ++ [('.')]) <+: c.path := by
      rcases hedge with h | ⟨_, h⟩ | ⟨h0, _⟩
      · left
        refine ⟨[(']'), ('.')] ++ c.key, ?_⟩
        rw [h]; simp [strL]
      · right
        refine ⟨c.key, ?_⟩
        rw [h]; simp [strL]
      · exact absurd h0 hroot
    have hclen : 3 ≤ c.path.length := by
      rcases hext with ⟨t, ht⟩ | ⟨t, ht⟩ <;>
        (rw [← ht]; simp; omega)
    have hcnd : c.path ≠ strL (".") := by
      intro hEq
      rw [hEq] at hclen
      simp [strL] at hclen
    rcases ih hkid hcnd with hEq | hsw | hsw
    · subst hEq
      rcases hext with h | h
      · exact Or.inr (Or.inr (jsStartsWith_iff.mpr h))
      · exact Or.inr (Or.inl (jsStartsWith_iff.mpr h))
    · rw [jsStartsWith_iff] at hsw
      have hc : (c.path ++ [('.')] : Str) <+: m.path := hsw
      have h1 : (n.path ++ [('[')]) <+: c.path ∨ (n.path ++ [('.')]) <+: c.path := hext
      have h2 : c.path <+: m.path := (List.prefix_append c.path [('.')]).trans hc
      rcases h1 with h | h
      · exact Or.inr (Or.inr (jsStartsWith_iff.mpr (h.trans h2)))
      · exact Or.inr (Or.inl (jsStartsWith_iff.mpr (h.trans h2)))
    · rw [jsStartsWith_iff] at hsw
      have hc : (c.path ++ [('[')] : Str) <+: m.path := hsw
      have h2 : c.path <+: m.path := (List.prefix_append c.path [('[')]).trans hc
      rcases hext with h | h
      · exact Or.inr (Or.inr (jsStartsWith_iff.mpr (h.trans h2)))
      · exact Or.inr (Or.inl (jsStartsWith_iff.mpr (h.trans h2)))

theorem pathsOk_leafNode {d : NodeData} {v : JSON}
    (h : jsStartsWith d.path (strL (".")) = true) : PathsOk (.node d v none) :=
  PathsOk.intro (by simpa [JNode.path, JNode.d] using h)
    (by intro c hc; simp [JNode.childrenL] at hc)
    (by intro c hc; simp [JNode.childrenL] at hc)

theorem pathsOk_withKids {d : NodeData} {v : JSON} {l : List JNode}
    (h : jsStartsWith d.path (strL (".")) = true)
    (he : ∀ c ∈ l, EdgeOk (.node d v (some l)) c)
    (hk : ∀ c ∈ l, PathsOk c) : PathsOk (.node d v (some l)) :=
  PathsOk.intro (by simpa [JNode.path, JNode.d] using h)
    (by intro c hc; exact he c (by simpa [JNode.childrenL] using hc))
    (by intro c hc; exact hk c (by simpa [JNode.childrenL] using hc))

theorem childrenL_none {d : NodeData} {v : JSON} :
    (JNode.node d v none).childrenL = [] := rfl

theorem childrenL_some {d : NodeData} {v : JSON} {l : List JNode} :
    (JNode.node d v (some l)).childrenL = l := rfl

theorem sw_extend {p q pat : Str} (h : jsStartsWith p pat = true) :
    jsStartsWith (p ++ q) pat = true := by
  rw [jsStartsWith_iff] at h ⊢
  exact h.trans (List.prefix_append p q)

/-- Trees built by `buildTree` (with a dot-headed path argument) satisfy the
address discipline, and the produced node carries the given path and key. -/
theorem buildTree_pathsOk (v : JSON) (key path : Str) (b : Bool) (i : Nat) :
    ∀ nd, buildTree v key path b i = some nd →
      jsStartsWith path (strL (".")) = true →
      PathsOk nd ∧ nd.path = path ∧ nd.key = key := by
  refine buildTree.induct
    (fun v key path b i => ∀ nd, buildTree v key path b i = some nd →
        jsStartsWith path (strL (".")) = true →
        PathsOk nd ∧ nd.path = path ∧ nd.key = key)
    (fun l pref idx => jsStartsWith pref (strL (".")) = true →
        ∀ ns, buildArrKids l pref idx = some ns →
        ∀ c ∈ ns, PathsOk c ∧ c.path = pref ++ c.key)
    (fun kvs pref b2 idx => jsStartsWith pref (strL (".")) = true →
        ∀ ns, buildObjKids kvs pref b2 idx = some ns →
        ∀ c ∈ ns, PathsOk c ∧ c.path = pref ++ c.key)
    ?_ ?_ ?_ ?_ ?_ ?_ ?_ ?_ ?_ ?_ ?_ ?_ ?_ ?_ ?_ ?_ ?_ ?_ v key path b i
  -- empty array: a leaf-equivalent list node, no children
  · intro key path b i nd h hsw
    simp [buildTree] at h
    subst h
    exact ⟨pathsOk_leafNode (by simpa [JNode.path, JNode.d, mkData] using hsw),
      by simp [JNode.path, JNode.d, mkData], by simp [JNode.key, JNode.d, mkData]⟩
  -- null-headed array: buildTree raises
  · intro key path b i tail nd h _
    simp [buildTree] at h
  -- object-headed array, children failed
  · intro key path b i tail kvs hnone _ nd h _
    simp [buildTree, hnone] at h
  -- object-headed array, children built
  · intro key path b i tail kvs cs hsome ih nd h hsw
    simp [buildTree, hsome] at h
    subst h
    have hsw2 : jsStartsWith (path ++ strL ("[].")) (strL (".")) = true := sw_extend hsw
    have hkids := ih hsw2 cs hsome
    refine ⟨pathsOk_withKids (by simpa [JNode.path, JNode.d, mkData] using hsw)
        ?_ (fun c hc => (hkids c hc).1),
      by simp [JNode.path, JNode.d, mkData], by simp [JNode.key, JNode.d, mkData]⟩
    intro c hc
    left
    rw [(hkids c hc).2]
    simp [JNode.path, JNode.d, mkData]
  -- array-headed array, children failed
  · intro key path b i tail l hnone _ nd h _
    simp [buildTree, hnone] at h
  -- array-headed array, children built
  · intro key path b i tail l cs hsome ih nd h hsw
    simp [buildTree, hsome] at h
    subst h
    have hsw2 : jsStartsWith (path ++ strL ("[].")) (strL (".")) = true := sw_extend hsw
    have hkids := ih hsw2 cs hsome
    refine ⟨pathsOk_withKids (by simpa [JNode.path, JNode.d, mkData] using hsw)
        ?_ (fun c hc => (hkids c hc).1),
      by simp [JNode.path, JNode.d, mkData], by simp [JNode.key, JNode.d, mkData]⟩
    intro c hc
    left
    rw [(hkids c hc).2]
    simp [JNode.path, JNode.d, mkData]
  -- scalar-headed array: no children
  · intro key path b i h0 tail hnull hobj harr nd h hsw
    cases h0 with
    | null => exact absurd rfl hnull
    | obj kvs => exact absurd rfl (hobj kvs)
    | arr l => exact absurd rfl (harr l)
    | bool bb =>
      simp [buildTree] at h
      subst h
      exact ⟨pathsOk_leafNode (by simpa [JNode.path, JNode.d, mkData] using hsw),
        by simp [JNode.path, JNode.d, mkData], by simp [JNode.key, JNode.d, mkData]⟩
    | num nn =>
      simp [buildTree] at h
      subst h
      exact ⟨pathsOk_leafNode (by simpa [JNode.path, JNode.d, mkData] using hsw),
        by simp [JNode.path, JNode.d, mkData], by simp [JNode.key, JNode.d, mkData]⟩
    | str ss =>
      simp [buildTree] at h
      subst h
      exact ⟨pathsOk_leafNode (by simpa [JNode.path, JNode.d, mkData] using hsw),
        by simp [JNode.path, JNode.d, mkData], by simp [JNode.key, JNode.d, mkData]⟩
  -- object, children failed
  · intro key path b i kvs pref hnone _ nd h _
    simp [buildTree, hnone] at h
  -- object, children built
  · intro key path b i kvs pref cs hsome ih nd h hsw
    have hswp : jsStartsWith pref (strL (".")) = true := by
      show jsStartsWith (if path = strL (".") then strL (".") else path ++ strL (".")) _ = true
      split
      · simp [jsStartsWith, List.isPrefixOf]
      · exact sw_extend hsw
    simp [buildTree, hsome] at h
    subst h
    have hkids := ih hswp cs hsome
    refine ⟨pathsOk_withKids (by simpa [JNode.path, JNode.d, mkData] using hsw)
        ?_ (fun c hc => (hkids c hc).1),
      by simp [JNode.path, JNode.d, mkData], by simp [JNode.key, JNode.d, mkData]⟩
    intro c hc
    by_cases hdot : path = strL (".")
    · right; right
      constructor
      · simp [JNode.path, JNode.d, mkData, hdot]
      · rw [(hkids c hc).2]
        show (if path = strL (".") then strL (".") else path ++ strL (".")) ++ c.key = _
        simp [hdot]
    · right; left
      constructor
      · simpa [JNode.path, JNode.d, mkData] using hdot
      · rw [(hkids c hc).2]
        show (if path = strL (".") then strL (".") else path ++ strL (".")) ++ c.key = _
        simp [hdot, JNode.path, JNode.d, mkData]
  -- scalar value: leaf node
  · intro key path b i s harr hobj nd h hsw
    cases s with
    | arr l => exact absurd rfl (harr l)
    | obj kvs => exact absurd rfl (hobj kvs)
    | null =>
      simp [buildTree] at h
      subst h
      exact ⟨pathsOk_leafNode (by simpa [JNode.path, JNode.d, mkData] using hsw),
        by simp [JNode.path, JNode.d, mkData], by simp [JNode.key, JNode.d, mkData]⟩
    | bool bb =>
      simp [buildTree] at h
      subst h
      exact ⟨pathsOk_leafNode (by simpa [JNode.path, JNode.d, mkData] using hsw),
        by simp [JNode.path, JNode.d, mkData], by simp [JNode.key, JNode.d, mkData]⟩
    | num nn =>
      simp [buildTree] at h
      subst h
      exact ⟨pathsOk_leafNode (by simpa [JNode.path, JNode.d, mkData] using hsw),
        by simp [JNode.path, JNode.d, mkData], by simp [JNode.key, JNode.d, mkData]⟩
    | str ss =>
      simp [buildTree] at h
      subst h
      exact ⟨pathsOk_leafNode (by simpa [JNode.path, JNode.d, mkData] using hsw),
        by simp [JNode.path, JNode.d, mkData], by simp [JNode.key, JNode.d, mkData]⟩
  -- buildArrKids []
  · intro pref idx _ ns h c hc
    simp [buildArrKids] at h
    subst h
    simp at hc
  -- buildArrKids, head failed
  · intro pref idx h0 tail k hnone _ _ ns h
    have hs3 : buildTree h0 (Nat.repr idx).data (pref ++ (Nat.repr idx).data) true idx = none :=
      hnone
    simp [buildArrKids, hs3] at h
  -- buildArrKids, head ok, tail failed
  · intro pref idx h0 tail k n hsome hnone _ _ _ ns h
    have hs3 : buildTree h0 (Nat.repr idx).data (pref ++ (Nat.repr idx).data) true idx = some n :=
      hsome
    simp [buildArrKids, hs3, hnone] at h
  -- buildArrKids, all ok
  · intro pref idx h0 tail k n hsome cs hcs ih1 ih2 hswp ns h c hc
    have hs3 : buildTree h0 (Nat.repr idx).data (pref ++ (Nat.repr idx).data) true idx = some n :=
      hsome
    simp [buildArrKids, hs3, hcs] at h
    subst h
    rcases List.mem_cons.mp hc with hEq | hmem
    · subst hEq
      obtain ⟨hp, hpath, hkey⟩ := ih1 c hsome (sw_extend hswp)
      exact ⟨hp, by rw [hpath, hkey]⟩
    · exact ih2 hswp cs hcs c hmem
  -- buildObjKids []
  · intro pref b idx _ ns h c hc
    simp [buildObjKids] at h
    subst h
    simp at hc
  -- buildObjKids, head failed
  · intro pref b idx k v0 rest hnone _ _ ns h
    simp [buildObjKids, hnone] at h
  -- buildObjKids, head ok, tail failed
  · intro pref b idx k v0 rest n hsome hnone _ _ _ ns h
    simp [buildObjKids, hsome, hnone] at h
  -- buildObjKids, all ok
  · intro pref b idx k v0 rest n hsome cs hcs ih1 ih2 hswp ns h c hc
    simp [buildObjKids, hsome, hcs] at h
    subst h
    rcases List.mem_cons.mp hc with hEq | hmem
    · subst hEq
      obtain ⟨hp, hpath, hkey⟩ := ih1 c hsome (sw_extend hswp)
      exact ⟨hp, by rw [hpath, hkey]⟩
    · exact ih2 hswp cs hcs c hmem

theorem pathsOk_closure {r m : JNode} (hr : PathsOk r) (hm : OccursIn m r) : PathsOk m := by
  induction hm with
  | refl => exact hr
  | @child c n hmc hcn ih => exact ih (hr.kid c hcn)

theorem pathsOk_dot_root {r m : JNode} (hr : PathsOk r) (hm : OccursIn m r)
    (hdot : m.path = strL (".")) : r.path = strL (".") := by
  by_contra hne
  have h2 := length_ge_two_of_ne_dot hr.head hne
  have h4 : (strL (".")).length = 1 := rfl
  rcases pathsOk_descend m r hm hr hne with hEq | hsw | hsw
  all_goals first
  | exact hne (hEq ▸ hdot)
  | · rw [jsStartsWith_iff] at hsw
      have h3 := hsw.length_le
      rw [hdot, h4] at h3
      simp only [List.length_append, List.length_cons, List.length_nil] at h3
      omega

/-- The onDrop-level guard: a target address equal to the source address or
extending it through a `.` or `[` character makes the whole move a no-op. -/
theorem onDrop_guard_noop (root : JNode) (moved : List MoveRec) (f t : Str)
    (h : t = f ∨ jsStartsWith t (f ++ strL (".")) = true
        ∨ jsStartsWith t (f ++ strL ("[")) = true) :
    onDropMoveInto root moved f t = (root, moved) := by
  unfold onDropMoveInto
  rcases h with h | h | h
  · simp [h]
  · by_cases hft : f = t
    · simp [hft]
    · simp [hft, h]
  · by_cases hft : f = t
    · simp [hft]
    · simp [hft, h]

/-- Moving the root (or any node addressed `"."` in a tree whose root is
addressed `"."`) anywhere is a no-op: `findParentOfNode` reports no parent. -/
theorem onDrop_root_noop (root : JNode) (moved : List MoveRec) (t : Str)
    (hroot : root.path = strL (".")) :
    onDropMoveInto root moved (strL (".")) t = (root, moved) := by
  unfold onDropMoveInto
  by_cases hft : strL (".") = t
  · simp [hft]
  · simp only [hft, if_false]
    split
    · rfl
    · split
      · rfl
      · split
        · rfl
        · unfold handleMoveInto
          have h1 : findNodeByPath root (strL (".")) = some root := by
            cases root with
            | node d v c =>
              unfold findNodeByPath
              simp [JNode.path, JNode.d] at hroot
              simp [hroot]
          rw [h1]
          unfold removeNodeAt
          simp [hroot]

/-! ## Concrete scenario inputs used by witnesses and counterexamples -/

def dfltNode : JNode := .node (mkData [] [] false 0) .null none

/-- `{"a": {"b": {"c": 1}}}` -/
def docNest : JSON :=
  .obj [(strL ("a"), .obj [(strL ("b"), .obj [(strL ("c"), .num 1)])])]

def tNest : JNode := (buildRoot docNest).getD dfltNode

def tNestSel : JNode := toggleSelect tNest (strL (".a.b.c"))

/-- `{"items": [{"x": 1}], "owner": 2}` -/
def docItems : JSON :=
  .obj [(strL ("items"), .arr [.obj [(strL ("x"), .num 1)]]), (strL ("owner"), .num 2)]

/-- The C1 scenario state: select `.owner`, then move it into the array node
`.items`. -/
def stItems : JNode × List MoveRec :=
  onDropMoveInto (toggleSelect ((buildRoot docItems).getD dfltNode) (strL (".owner")))
    [] (strL (".owner")) (strL (".items"))

/-- `{"a": {"x": 1}, "b": {}, "c": {}}` -/
def docRemove : JSON :=
  .obj [(strL ("a"), .obj [(strL ("x"), .num 1)]), (strL ("b"), .obj []),
        (strL ("c"), .obj [])]

/-- The C2 scenario: move `.a` into `.b`, then move the relocated `.b.a` into
`.c`. -/
def stRemove1 : JNode × List MoveRec :=
  onDropMoveInto ((buildRoot docRemove).getD dfltNode) [] (strL (".a")) (strL (".b"))

def stRemove2 : JNode × List MoveRec :=
  onDropMoveInto stRemove1.1 stRemove1.2 (strL (".b.a")) (strL (".c"))

/-- `{"a": {}, "b": {}, "c": {"y": 1}}` -/
def docShadow : JSON :=
  .obj [(strL ("a"), .obj []), (strL ("b"), .obj []),
        (strL ("c"), .obj [(strL ("y"), .num 1)])]

/-- The C3 scenario: select `.c.y`, move `.a` into `.b`, then move `.c` into
the relocated `.b.a`; both records' prefixes then match the selected leaf's
display address `.b.a.c.y`. -/
def stShadow1 : JNode × List MoveRec :=
  onDropMoveInto (toggleSelect ((buildRoot docShadow).getD dfltNode) (strL (".c.y")))
    [] (strL (".a")) (strL (".b"))

def stShadow2 : JNode × List MoveRec :=
  onDropMoveInto stShadow1.1 stShadow1.2 (strL (".c")) (strL (".b.a"))

/-! ## C4 — cycle prevention -/

/-- C4: MoveInto onto the source itself or onto any of its descendants is a
complete no-op.  First conjunct: the address-level guard — a target address
equal to the source address or extending it through a `.` or `[` character
(the form every descendant address takes, array-scope markers included) leaves
tree and MoveRecord list unchanged.  Second conjunct: the tree-level statement
— in any tree satisfying the address discipline `PathsOk`, moving a node onto
any node of its own subtree is a no-op.  Third conjunct: every tree built by
`buildTree` satisfies `PathsOk`. -/
theorem moveInto_cycle_noop :
    (∀ (root : JNode) (moved : List MoveRec) (f t : Str),
      (t = f ∨ jsStartsWith t (f ++ strL (".")) = true
          ∨ jsStartsWith t (f ++ strL ("[")) = true) →
      onDropMoveInto root moved f t = (root, moved))
    ∧ (∀ (root : JNode) (moved : List MoveRec) (n m : JNode),
      PathsOk root → OccursIn n root → OccursIn m n →
      onDropMoveInto root moved n.path m.path = (root, moved))
    ∧ (∀ (v : JSON) (nd : JNode), buildRoot v = some nd → PathsOk nd) := by
  refine ⟨onDrop_guard_noop, ?_, ?_⟩
  · intro root moved n m hP hn hm
    by_cases hdot : n.path = strL (".")
    · have hroot : root.path = strL (".") := pathsOk_dot_root hP hn hdot
      rw [hdot]
      exact onDrop_root_noop root moved m.path hroot
    · have hPn : PathsOk n := pathsOk_closure hP hn
      rcases pathsOk_descend m n hm hPn hdot with hEq | hsw | hsw
      · exact onDrop_guard_noop root moved n.path m.path (Or.inl (by rw [hEq]))
      · exact onDrop_guard_noop root moved n.path m.path (Or.inr (Or.inl hsw))
      · exact onDrop_guard_noop root moved n.path m.path (Or.inr (Or.inr hsw))
  · intro v nd h
    exact (buildTree_pathsOk v (strL ("root")) (strL (".")) false 0 nd h (by decide)).1

/-- The node `.a.b` of the `docNest` tree. -/
def nodeAB : JNode := (findNodeByPath tNest (strL (".a.b"))).getD dfltNode

def nodeA : JNode := (findNodeByPath tNest (strL (".a"))).getD dfltNode

/-- Witness for C4: in the tree of `{"a":{"b":{"c":1}}}`, dropping `.a` onto
its descendant `.a.b` is a no-op (via the address guard), and so is dropping
the root onto `.a.b` (via the tree-level statement). -/
theorem moveInto_cycle_noop_witness :
    onDropMoveInto tNest [] (strL (".a")) (strL (".a.b")) = (tNest, [])
    ∧ onDropMoveInto tNest [] (strL (".")) (strL (".a.b")) = (tNest, []) := by
  constructor
  · exact moveInto_cycle_noop.1 tNest [] _ _ (Or.inr (Or.inl (by decide)))
  · have hP : PathsOk tNest := moveInto_cycle_noop.2.2 docNest tNest rfl
    have hab : nodeA ∈ tNest.childrenL := List.mem_cons_self _ _
    have hba : nodeAB ∈ nodeA.childrenL := List.mem_cons_self _ _
    have hocc : OccursIn nodeAB tNest :=
      OccursIn.child (OccursIn.child (OccursIn.refl nodeAB) hba) hab
    exact moveInto_cycle_noop.2.1 tNest [] tNest nodeAB hP (OccursIn.refl tNest) hocc

/-! ## C2 — MoveRecord append semantics -/

/-- C2 (amended): `handleMoveInto` either leaves the record list alone (the
no-op paths) or appends exactly one fresh record whose `originalPath` is the
node's address immediately before this move; no existing record is ever
updated in place. -/
theorem handleMoveInto_appends (root : JNode) (moved : List MoveRec) (f t : Str) :
    (handleMoveInto root moved f t).2 = moved
    ∨ (∃ k, (handleMoveInto root moved f t).2 =
        moved ++ [{ fromPath := f, toPath := t, key := k, originalPath := f }]) := by
  unfold handleMoveInto
  split
  · exact Or.inl rfl
  · split
    · exact Or.inl rfl
    · split
      · exact Or.inl rfl
      · split
        · exact Or.inl rfl
        · exact Or.inr ⟨_, rfl⟩

/-- Counterexample to C2 as stated: moving `.a` into `.b` and then the
relocated `.b.a` into `.c` leaves TWO MoveRecords — the second move appends a
fresh record (with `originalPath = ".b.a"`, the pre-second-move address)
instead of updating the first one in place. -/
theorem moveRecord_upsert_counterexample :
    stRemove2.2 =
      [{ fromPath := strL (".a"), toPath := strL (".b"), key := strL ("a"),
         originalPath := strL (".a") },
       { fromPath := strL (".b.a"), toPath := strL (".c"), key := strL ("a"),
         originalPath := strL (".b.a") }]
    ∧ stRemove2.2.length ≠ 1 := by
  constructor
  · decide
  · decide

/-! ## C1 — source resolution after a move into an array -/

/-- Evaluation of the C1 failing input: after moving the selected leaf
`.owner` into the array node `.items`, `collectSelected` leaves
`sourceAddress` at the display address `.items[].owner` with `isMoved = false`
— the pre-move address `.owner` is NOT recovered, because the stored record
prefix `.items.owner` (built as `toPath + "." + key`) can never match the
`[].`-form display path the move itself created. -/
theorem collectSelected_array_move_eval :
    (collectSelected stItems.2 stItems.1).map (fun e => (e.path, e.sourcePath, e.isMoved))
      = [(strL (".items[].owner"), strL (".items[].owner"), false)]
    ∧ stItems.2 = [{ fromPath := strL (".owner"), toPath := strL (".items"),
                     key := strL ("owner"), originalPath := strL (".owner") }]
    ∧ (strL (".items[].owner") : Str) ≠ strL (".owner") := by
  refine ⟨by decide, by decide, by decide⟩

/-! ## C3 — which MoveRecord resolves a selected leaf -/

/-- Every entry pushed by the selection walk resolves its source through
`resolveSource` (the entries already in the accumulator excepted). -/
theorem collectSel_resolves (moved : List MoveRec) :
    ∀ (n : JNode) (acc : List SEntry × Nat) (e : SEntry),
      e ∈ (collectSel moved n acc).1 →
      e ∈ acc.1 ∨ (e.sourcePath, e.isMoved) = resolveSource moved e.path := by
  intro n acc
  refine collectSel.induct moved
    (fun n acc => ∀ e, e ∈ (collectSel moved n acc).1 →
      e ∈ acc.1 ∨ (e.sourcePath, e.isMoved) = resolveSource moved e.path)
    (fun l acc => ∀ e, e ∈ (collectSelL moved l acc).1 →
      e ∈ acc.1 ∨ (e.sourcePath, e.isMoved) = resolveSource moved e.path)
    ?_ ?_ ?_ ?_ n acc
  · intro d v acc e he
    simp only [collectSel] at he
    by_cases hsel : d.selected && d.isLeaf
    · simp only [hsel, if_true] at he
      rcases List.mem_append.mp he with h | h
      · exact Or.inl h
      · simp only [List.mem_singleton] at h
        subst h
        exact Or.inr rfl
    · simp only [hsel, if_false] at he
      exact Or.inl he
  · intro d v acc0 acc1 l ih e he
    rcases ih e he with h | h
    · unfold acc1 at h
      by_cases hsel : (d.selected && d.isLeaf) = true
      · simp only [hsel, if_true] at h
        rcases List.mem_append.mp h with h2 | h2
        · exact Or.inl h2
        · simp only [List.mem_singleton] at h2
          subst h2
          exact Or.inr rfl
      · simp only [hsel, if_false] at h
        exact Or.inl h
    · exact Or.inr h
  · intro acc e he
    exact Or.inl he
  · intro c cs acc ih1 ih2 e he
    simp only [collectSelL] at he
    rcases ih2 e he with h | h
    · exact ih1 e h
    · exact Or.inr h

/-- C3 (amended): a selected leaf's `sourceAddress` is determined by the FIRST
MoveRecord in list order (move chronology) whose synthesized prefix matches
the display address — the loop in `collectSelected` breaks at the first match
— not by the record with the longest matching prefix; with no match the
display address stands. -/
theorem collectSelected_first_match_wins (moved : List MoveRec) (root : JNode)
    (e : SEntry) (he : e ∈ collectSelected moved root) :
    (∃ m l1 l2, moved = l1 ++ m :: l2
        ∧ jsStartsWith e.path (recPref m) = true
        ∧ (∀ m2 ∈ l1, jsStartsWith e.path (recPref m2) = false)
        ∧ e.sourcePath = m.originalPath ++ e.path.drop (recPref m).length
        ∧ e.isMoved = true)
    ∨ ((∀ m ∈ moved, jsStartsWith e.path (recPref m) = false)
        ∧ e.sourcePath = e.path ∧ e.isMoved = false) := by
  have h := collectSel_resolves moved root ([], 0) e he
  rcases h with h | h
  · simp at h
  · unfold resolveSource at h
    cases hfind : moved.find? (fun m => jsStartsWith e.path (recPref m)) with
    | some m =>
      rw [hfind] at h
      rw [Prod.mk.injEq] at h
      left
      obtain ⟨hpm, l1, l2, hsplit, hprev⟩ := List.find?_eq_some.mp hfind
      refine ⟨m, l1, l2, hsplit, hpm, ?_, h.1, h.2⟩
      intro m2 hm2
      have := hprev m2 hm2
      simpa using this
    | none =>
      rw [hfind] at h
      rw [Prod.mk.injEq] at h
      right
      rw [List.find?_eq_none] at hfind
      exact ⟨fun m hm => by simpa using hfind m hm, h.1, h.2⟩

/-- Counterexample to C3 as stated: in the `stShadow2` state both records'
prefixes match the selected leaf's display address `.b.a.c.y`; the second
record's prefix `.b.a.c` is strictly longer, yet resolution uses the first
record (`.b` move), yielding `.a.c.y` — not the `.c.y` the longest-prefix
record would give. -/
theorem longest_prefix_counterexample :
    stShadow2.2 =
      [{ fromPath := strL (".a"), toPath := strL (".b"), key := strL ("a"),
         originalPath := strL (".a") },
       { fromPath := strL (".c"), toPath := strL (".b.a"), key := strL ("c"),
         originalPath := strL (".c") }]
    ∧ (collectSelected stShadow2.2 stShadow2.1).map (fun e => (e.path, e.sourcePath))
        = [(strL (".b.a.c.y"), strL (".a.c.y"))]
    ∧ jsStartsWith (strL (".b.a.c.y"))
        (recPref { fromPath := strL (".c"), toPath := strL (".b.a"),
                   key := strL ("c"), originalPath := strL (".c") }) = true
    ∧ (recPref { fromPath := strL (".a"), toPath := strL (".b"), key := strL ("a"),
                 originalPath := strL (".a") }).length
        < (recPref { fromPath := strL (".c"), toPath := strL (".b.a"),
                     key := strL ("c"), originalPath := strL (".c") }).length
    ∧ strL (".a.c.y") ≠
        (strL (".c")) ++ (strL (".b.a.c.y")).drop
          (recPref { fromPath := strL (".c"), toPath := strL (".b.a"),
                     key := strL ("c"), originalPath := strL (".c") }).length := by
  refine ⟨by decide, by decide, by decide, by decide, by decide⟩

def eShadow : SEntry :=
  { path := strL (".b.a.c.y"), sourcePath := strL (".a.c.y"), key := strL ("y"),
    originalIndex := 0, order := 0, isMoved := true }

/-- Witness for `collectSelected_first_match_wins` at the `stShadow2` state's
single collected entry. -/
theorem collectSelected_first_match_wins_witness :
    (∃ m l1 l2, stShadow2.2 = l1 ++ m :: l2
        ∧ jsStartsWith eShadow.path (recPref m) = true
        ∧ (∀ m2 ∈ l1, jsStartsWith eShadow.path (recPref m2) = false)
        ∧ eShadow.sourcePath = m.originalPath ++ eShadow.path.drop (recPref m).length
        ∧ eShadow.isMoved = true)
    ∨ ((∀ m ∈ stShadow2.2, jsStartsWith eShadow.path (recPref m) = false)
        ∧ eShadow.sourcePath = eShadow.path ∧ eShadow.isMoved = false) :=
  collectSelected_first_match_wins stShadow2.2 stShadow2.1 eShadow (by decide)

/-! ## C5 — tree builder totality -/

mutual
/-- The exact domain of `buildTree`, by the same recursion: every JSON value
except those containing — at a position `buildTree` visits — an array whose
first element is `null` (where `Object.entries(null)` throws).  Only the first
element of an array is visited; later elements are never recursed into. -/
def buildOk : JSON → Bool
  | .arr [] => true
  | .arr (.null :: _) => false
  | .arr (.obj kvs :: _) => buildOkKvs kvs
  | .arr (.arr l :: _) => buildOkL l
  | .arr (_ :: _) => true
  | .obj kvs => buildOkKvs kvs
  | _ => true
def buildOkKvs : List (Str × JSON) → Bool
  | [] => true
  | (_, v) :: rest => buildOk v && buildOkKvs rest
def buildOkL : List JSON → Bool
  | [] => true
  | v :: rest => buildOk v && buildOkL rest
end

/-- Scalar JSON values (`typeof` not `'object'` in the source). -/
def leafLike : JSON → Bool
  | .null => true
  | .bool _ => true
  | .num _ => true
  | .str _ => true
  | _ => false

/-- The values for which the claim promises no synthesized per-field children:
empty arrays, arrays with a non-object first element, and scalars.  (In the
code an array-valued first element DOES synthesize per-index children, so
`leafLike` rather than "non-object" is the faithful condition.) -/
def noSynthKids : JSON → Bool
  | .arr [] => true
  | .arr (h :: _) => leafLike h
  | .obj _ => false
  | _ => true

/-- C5 (amended): `buildTree` succeeds exactly on `buildOk` values — it
terminates and raises only for an array whose first element is `null`, at any
depth it visits — and on empty arrays, scalar-headed arrays and scalar values
the produced node has `children = null`. -/
theorem buildTree_total (v : JSON) (key path : Str) (b : Bool) (i : Nat) :
    (buildTree v key path b i).isSome = buildOk v
    ∧ (∀ nd, buildTree v key path b i = some nd → noSynthKids v = true →
        nd.children = none) := by
  refine buildTree.induct
    (fun v key path b i => (buildTree v key path b i).isSome = buildOk v
      ∧ (∀ nd, buildTree v key path b i = some nd → noSynthKids v = true →
          nd.children = none))
    (fun l pref idx => (buildArrKids l pref idx).isSome = buildOkL l)
    (fun kvs pref b2 idx => (buildObjKids kvs pref b2 idx).isSome = buildOkKvs kvs)
    ?_ ?_ ?_ ?_ ?_ ?_ ?_ ?_ ?_ ?_ ?_ ?_ ?_ ?_ ?_ ?_ ?_ ?_ v key path b i
  · intro key path b i
    exact ⟨by simp [buildTree, buildOk], by intro nd h _; simp [buildTree] at h; subst h; rfl⟩
  · intro key path b i tail
    exact ⟨by simp [buildTree, buildOk], by intro nd h _; simp [buildTree] at h⟩
  · intro key path b i tail kvs hnone ih
    constructor
    · simp [buildTree, buildOk, hnone]
      rw [← ih]
      simp [hnone]
    · intro nd h _
      simp [buildTree, hnone] at h
  · intro key path b i tail kvs cs hsome ih
    constructor
    · simp [buildTree, buildOk, hsome]
      rw [← ih]
      simp [hsome]
    · intro nd h hno
      simp [noSynthKids, leafLike] at hno
  · intro key path b i tail l hnone ih
    constructor
    · simp [buildTree, buildOk, hnone]
      rw [← ih]
      simp [hnone]
    · intro nd h _
      simp [buildTree, hnone] at h
  · intro key path b i tail l cs hsome ih
    constructor
    · simp [buildTree, buildOk, hsome]
      rw [← ih]
      simp [hsome]
    · intro nd h hno
      simp [noSynthKids, leafLike] at hno
  · intro key path b i h0 tail hnull hobj harr
    cases h0 with
    | null => exact absurd rfl hnull
    | obj kvs => exact absurd rfl (hobj kvs)
    | arr l => exact absurd rfl (harr l)
    | bool bb =>
      exact ⟨by simp [buildTree, buildOk], by intro nd h _; simp [buildTree] at h; subst h; rfl⟩
    | num nn =>
      exact ⟨by simp [buildTree, buildOk], by intro nd h _; simp [buildTree] at h; subst h; rfl⟩
    | str ss =>
      exact ⟨by simp [buildTree, buildOk], by intro nd h _; simp [buildTree] at h; subst h; rfl⟩
  · intro key path b i kvs pref hnone ih
    constructor
    · simp [buildTree, buildOk, hnone]
      rw [← ih]
      simp [hnone]
    · intro nd h _
      simp [buildTree, hnone] at h
  · intro key path b i kvs pref cs hsome ih
    constructor
    · simp [buildTree, buildOk, hsome]
      rw [← ih]
      simp [hsome]
    · intro nd h hno
      simp [noSynthKids] at hno
  · intro key path b i s harr hobj
    cases s with
    | arr l => exact absurd rfl (harr l)
    | obj kvs => exact absurd rfl (hobj kvs)
    | null =>
      exact ⟨by simp [buildTree, buildOk], by intro nd h _; simp [buildTree] at h; subst h; rfl⟩
    | bool bb =>
      exact ⟨by simp [buildTree, buildOk], by intro nd h _; simp [buildTree] at h; subst h; rfl⟩
    | num nn =>
      exact ⟨by simp [buildTree, buildOk], by intro nd h _; simp [buildTree] at h; subst h; rfl⟩
    | str ss =>
      exact ⟨by simp [buildTree, buildOk], by intro nd h _; simp [buildTree] at h; subst h; rfl⟩
  · intro pref idx
    simp [buildArrKids, buildOkL]
  · intro pref idx h0 tail k hnone ih
    have hs3 : buildTree h0 (Nat.repr idx).data (pref ++ (Nat.repr idx).data) true idx = none :=
      hnone
    simp [buildArrKids, hs3, buildOkL]
    rw [← ih.1]
    simp [hnone]
  · intro pref idx h0 tail k n hsome hnone ih1 ih2
    have hs3 : buildTree h0 (Nat.repr idx).data (pref ++ (Nat.repr idx).data) true idx = some n :=
      hsome
    simp [buildArrKids, hs3, hnone, buildOkL]
    intro _
    rw [← ih2]
    simp [hnone]
  · intro pref idx h0 tail k n hsome cs hcs ih1 ih2
    have hs3 : buildTree h0 (Nat.repr idx).data (pref ++ (Nat.repr idx).data) true idx = some n :=
      hsome
    simp [buildArrKids, hs3, hcs, buildOkL]
    constructor
    · rw [← ih1.1]
      simp [hsome]
    · rw [← ih2]
      simp [hcs]
  · intro pref b idx
    simp [buildObjKids, buildOkKvs]
  · intro pref b idx k v0 rest hnone ih
    simp [buildObjKids, hnone, buildOkKvs]
    rw [← ih.1]
    simp [hnone]
  · intro pref b idx k v0 rest n hsome hnone ih1 ih2
    simp [buildObjKids, hsome, hnone, buildOkKvs]
    intro _
    rw [← ih2]
    simp [hnone]
  · intro pref b idx k v0 rest n hsome cs hcs ih1 ih2
    simp [buildObjKids, hsome, hcs, buildOkKvs]
    constructor
    · rw [← ih1.1]
      simp [hsome]
    · rw [← ih2]
      simp [hcs]

/-- Counterexample to C5 as stated: `buildTree` on `[null]` raises (the model
returns `none`), and an array of arrays — an array of non-objects — DOES get
synthesized per-index children. -/
theorem buildTree_total_counterexample :
    buildRoot (.arr [.null]) = none
    ∧ ((buildRoot (.arr [.arr [.num 1, .num 2]])).getD dfltNode).children.isSome = true
    ∧ ((buildRoot (.arr [.arr [.num 1, .num 2]])).getD dfltNode).childrenL.map (·.path)
        = [strL (".[].0"), strL (".[].1")] := by
  refine ⟨rfl, by decide, by decide⟩

/-- Witness for `buildTree_total`: a scalar-headed array builds successfully
with no children. -/
theorem buildTree_total_witness :
    (buildTree (.arr [.num 1, .num 2]) (strL ("root")) (strL (".")) false 0).isSome
      = buildOk (.arr [.num 1, .num 2])
    ∧ ((buildRoot (.arr [.num 1, .num 2])).getD dfltNode).children = none := by
  constructor
  · exact (buildTree_total (.arr [.num 1, .num 2]) (strL ("root")) (strL (".")) false 0).1
  · cases hb : buildRoot (.arr [.num 1, .num 2]) with
    | none =>
      have h1 := (buildTree_total (.arr [.num 1, .num 2]) (strL ("root")) (strL (".")) false 0).1
      have hb2 : buildTree (.arr [.num 1, .num 2]) (strL ("root")) (strL (".")) false 0 = none := hb
      rw [hb2] at h1
      simp [buildOk] at h1
    | some nd =>
      have := (buildTree_total (.arr [.num 1, .num 2]) (strL ("root")) (strL (".")) false 0).2
        nd hb (by decide)
      simpa [hb] using this

/-! ## C7 — empty selection yields the identity expression -/

mutual
/-- Whether any node of the subtree (as visited by `collectSelected`) is a
selected leaf. -/
def anySelLeaf : JNode → Bool
  | .node d _ none => d.selected && d.isLeaf
  | .node d _ (some l) => (d.selected && d.isLeaf) || anySelLeafL l
def anySelLeafL : List JNode → Bool
  | [] => false
  | c :: cs => anySelLeaf c || anySelLeafL cs
end

theorem collectSel_nosel (moved : List MoveRec) :
    ∀ (n : JNode) (acc : List SEntry × Nat),
      anySelLeaf n = false → collectSel moved n acc = acc := by
  intro n acc
  refine collectSel.induct moved
    (fun n acc => anySelLeaf n = false → collectSel moved n acc = acc)
    (fun l acc => anySelLeafL l = false → collectSelL moved l acc = acc)
    ?_ ?_ ?_ ?_ n acc
  · intro d v acc h
    simp only [anySelLeaf] at h
    simp [collectSel, h]
  · intro d v acc0 acc1 l ih h
    simp only [anySelLeaf, Bool.or_eq_false_iff] at h
    show collectSelL moved l acc1 = acc0
    rw [ih h.2]
    unfold acc1
    simp [h.1]
  · intro acc _
    rfl
  · intro c cs acc ih1 ih2 h
    simp only [anySelLeafL, Bool.or_eq_false_iff] at h
    show collectSelL moved cs (collectSel moved c acc) = acc
    rw [ih1 h.1] at ih2 ⊢
    exact ih2 h.2

/-- C7: when no leaf is selected, `updateExpression` returns the identity
expression `"."` — for every tree, whatever mutations produced it and whatever
MoveRecords exist.  (Synthesis moreover cannot fail: `updateExpression` is a
total function.) -/
theorem updateExpression_empty_identity (compress : Bool) (moved : List MoveRec)
    (root : JNode) (h : anySelLeaf root = false) :
    updateExpression compress moved root = strL (".") := by
  unfold updateExpression collectSelected
  rw [collectSel_nosel moved root ([], 0) h]
  rfl

/-- Witness for C7 on the freshly built `{"a":{"b":{"c":1}}}` tree. -/
theorem updateExpression_empty_identity_witness :
    updateExpression true [] tNest = strL (".") :=
  updateExpression_empty_identity true [] tNest (by decide)

/-! ## C8 — reorder is a permutation of the sibling list -/

theorem perm_insertIdx_cons (a : α) :
    ∀ (n : Nat) (l : List α), n ≤ l.length → (List.insertIdx n a l).Perm (a :: l) := by
  intro n
  induction n with
  | zero => intro l _; simp [List.insertIdx_zero]
  | succ n ih =>
    intro l hl
    cases l with
    | nil => simp at hl
    | cons x xs =>
      rw [List.insertIdx_succ_cons]
      exact ((ih xs (by simpa using hl)).cons x).trans (List.Perm.swap a x xs)

theorem perm_get_cons_eraseIdx :
    ∀ (l : List α) (i : Nat) (h : i < l.length),
      l.Perm (l.get ⟨i, h⟩ :: l.eraseIdx i) := by
  intro l
  induction l with
  | nil => intro i h; simp at h
  | cons x xs ih =>
    intro i h
    cases i with
    | zero => simp [List.eraseIdx]
    | succ i =>
      have hi : i < xs.length := by simpa using h
      have h1 : (x :: xs).Perm (x :: xs.get ⟨i, hi⟩ :: xs.eraseIdx i) := (ih i hi).cons x
      have h2 := h1.trans (List.Perm.swap (xs.get ⟨i, hi⟩) x (xs.eraseIdx i))
      simpa [List.eraseIdx] using h2

/-- C8: `handleReorder` only permutes the sibling list it is handed — every
node object (with its key, address, selection state and subtree) is preserved,
so only traversal/display order changes; it is the identity when the dragged
address is not among the target's siblings or when source and target addresses
coincide.  The `movedNodes` record list is not an input of the operation at
all, so it is unchanged by construction. -/
theorem handleReorder_frame :
    (∀ (l : List JNode) (f t : Str) (ia : Bool), (handleReorder l f t ia).Perm l)
    ∧ (∀ (l : List JNode) (f t : Str) (ia : Bool),
        l.findIdx? (fun c => c.path = f) = none → handleReorder l f t ia = l)
    ∧ (∀ (l : List JNode) (t : Str) (ia : Bool), handleReorder l t t ia = l) := by
  refine ⟨?_, ?_, ?_⟩
  · intro l f t ia
    unfold handleReorder
    cases hf : l.findIdx? (fun c => c.path = f) with
    | none => exact List.Perm.refl l
    | some fi =>
      cases ht : l.findIdx? (fun c => c.path = t) with
      | none => exact List.Perm.refl l
      | some ti =>
        by_cases hEq : fi = ti
        · simp [hEq]
        · simp only [hEq, if_false]
          have hfi : fi < l.length := (List.findIdx?_eq_some_iff_findIdx_eq.mp hf).1
          have hti : ti < l.length := (List.findIdx?_eq_some_iff_findIdx_eq.mp ht).1
          have hget : l[fi]? = some (l.get ⟨fi, hfi⟩) := by
            rw [List.getElem?_eq_getElem hfi]
            simp
          rw [hget]
          have herase := List.length_eraseIdx_add_one hfi
          have hle : (if ia then (if fi < ti then ti - 1 else ti) + 1
              else (if fi < ti then ti - 1 else ti)) ≤ (l.eraseIdx fi).length := by
            split <;> split <;> omega
          exact (perm_insertIdx_cons _ _ _ hle).trans
            (perm_get_cons_eraseIdx l fi hfi).symm
  · intro l f t ia h
    unfold handleReorder
    rw [h]
  · intro l t ia
    unfold handleReorder
    cases h : l.findIdx? (fun c => c.path = t) with
    | none => rfl
    | some i => simp

/-- Witness for C8: reorder with a non-sibling source address is the identity
on the root's child list, and so is a reorder of an address onto itself. -/
theorem handleReorder_frame_witness :
    handleReorder tNest.childrenL (strL (".zz")) (strL (".a")) true = tNest.childrenL
    ∧ handleReorder tNest.childrenL (strL (".a")) (strL (".a")) false = tNest.childrenL :=
  ⟨handleReorder_frame.2.1 tNest.childrenL (strL (".zz")) (strL (".a")) true (by decide),
   handleReorder_frame.2.2 tNest.childrenL (strL (".a")) false⟩

/-! ## C9 — the `$root` binding appears exactly when an entry is relocated -/

/-- Shape of a fragment: empty, or brace- or bracket-headed. -/
def fragOk (s : Str) : Prop :=
  s = [] ∨ s.head? = some ('{') ∨ s.head? = some ('[')

theorem glueObj_fragOk (parts : List (Nat × Str)) : fragOk (glueObj parts) := by
  unfold glueObj fragOk
  split
  · exact Or.inl rfl
  · right; left
    cases h : List.intercalate (strL (", ")) ((sortOrd parts).map (·.2)) <;> rfl

theorem treeToExpr_fragOk (c u : Bool) (t : List (Str × TrieV)) :
    fragOk (treeToExpr c u t) := glueObj_fragOk _

theorem groupExpr_fragOk (c u : Bool) (base : Str) (items : List GItem) :
    fragOk (groupExpr c u base items) := by
  unfold fragOk
  cases hps : parentSegsOf base with
  | nil =>
    right; right
    simp [groupExpr, hps, strL]
  | cons s rest =>
    right; left
    simp [groupExpr, hps, List.foldr]

theorem gpush_ne (g : List (Str × List GItem)) (k : Str) (x : GItem) :
    gpush g k x ≠ [] := by
  cases g with
  | nil => simp [gpush]
  | cons p rest =>
    unfold gpush
    split <;> simp

theorem buildGroups_foldl_ne (ps : List PEntry) :
    ∀ (g : List (Str × List GItem)),
      (ps.foldl (fun g p =>
        gpush g (baseOf p.displaySegments)
          { rest := p.displaySegments.drop (arrCut p.displaySegments)
            sourcePath := p.sourcePath
            order := p.order
            isMoved := p.isMoved }) g) = [] → g = [] ∧ ps = [] := by
  induction ps with
  | nil => intro g h; exact ⟨h, rfl⟩
  | cons p rest ih =>
    intro g h
    rw [List.foldl_cons] at h
    have := (ih _ h).1
    exact absurd this (gpush_ne _ _ _)

theorem synthResults_fragOk (c hm : Bool) (paths : List SEntry) :
    ∀ s ∈ synthResults c hm paths, fragOk s := by
  intro s hs
  unfold synthResults at hs
  rcases List.mem_append.mp hs with h | h
  · split at h
    · simp at h
    · simp only [List.mem_singleton] at h
      subst h
      exact treeToExpr_fragOk _ _ _
  · split at h
    · simp at h
    · unfold buildArrayExpr at h
      obtain ⟨gr, _, hgr⟩ := List.mem_map.mp h
      rw [← hgr]
      exact groupExpr_fragOk _ _ _ _

theorem synthResults_ne (c hm : Bool) (paths : List SEntry) (hne : paths ≠ []) :
    synthResults c hm paths ≠ [] := by
  intro hcontra
  simp only [synthResults] at hcontra
  rcases List.append_eq_nil.mp hcontra with ⟨h1, h2⟩
  split at h1
  case isFalse => exact absurd h1 (by simp)
  case isTrue hA =>
    split at h2
    case isFalse hB =>
      unfold buildArrayExpr at h2
      have hg := List.map_eq_nil_iff.mp h2
      unfold buildGroups at hg
      have := (buildGroups_foldl_ne _ [] hg).2
      rw [this] at hB
      exact hB (by simp)
    case isTrue hB =>
      cases hp : paths.map parseEntry with
      | nil => exact hne (List.map_eq_nil_iff.mp hp)
      | cons p rest =>
        rw [hp] at hA hB
        by_cases hb : p.displaySegments.any (fun s => jsEndsWith s (strL ("[]")))
        · simp [List.filter, hb] at hB
        · simp [List.filter, hb] at hA

theorem sw_false_of_head {s pat : Str} {c : Char} (hp : pat.head? = some c)
    (hs : s.head? ≠ some c) : jsStartsWith s pat = false := by
  cases pat with
  | nil => simp at hp
  | cons pc pr =>
    cases s with
    | nil => rfl
    | cons sc sr =>
      have h1 : pc = c := by simpa using hp
      have h2 : sc ≠ c := by simpa using hs
      subst h1
      simp [jsStartsWith, List.isPrefixOf]
      intro h3
      exact absurd h3.symm h2

theorem sw_append_self (pat r : Str) : jsStartsWith (pat ++ r) pat = true :=
  jsStartsWith_iff.mpr ⟨r, rfl⟩

theorem intercalate_cons2 (sep r r2 : Str) (rest : List Str) :
    List.intercalate sep (r :: r2 :: rest) = r ++ sep ++ List.intercalate sep (r2 :: rest) := by
  simp [List.intercalate, List.intersperse]

theorem mergeResults_head (rs : List Str) (hfrag : ∀ s ∈ rs, fragOk s)
    (hne : rs ≠ []) :
    (mergeResults rs).head? ≠ some ('.') := by
  match rs with
  | [] => exact absurd rfl hne
  | [r] =>
    rcases hfrag r (by simp) with h | h | h
    · subst h; simp [mergeResults]
    · simp [mergeResults, h]
    · simp [mergeResults, h]
  | r :: r2 :: rest =>
    show (List.intercalate (strL (" * ")) (r :: r2 :: rest)).head? ≠ some ('.')
    rw [intercalate_cons2]
    rcases hfrag r (by simp) with h | h | h
    · subst h; simp [strL]
    · cases r with
      | nil => simp at h
      | cons rc rr =>
        have : rc = ('{') := by simpa using h
        simp [this]
    · cases r with
      | nil => simp at h
      | cons rc rr =>
        have : rc = ('[') := by simpa using h
        simp [this]

theorem mergeResults_ne_dot (rs : List Str) (hfrag : ∀ s ∈ rs, fragOk s)
    (hne : rs ≠ []) : mergeResults rs ≠ strL (".") := by
  intro h
  have := mergeResults_head rs hfrag hne
  rw [h] at this
  exact this rfl

/-- The synthesized expression begins with the root-binding clause
`. as $root | ` exactly when some selected entry is relocated. -/
theorem rootBinding_iff (compress : Bool) (paths : List SEntry) :
    jsStartsWith (buildNestedExpr compress paths) (strL (". as $root | "))
      = paths.any (·.isMoved) := by
  unfold buildNestedExpr finalAssemble
  have hfrag := synthResults_fragOk compress (paths.any (·.isMoved)) paths
  cases hmv : paths.any (·.isMoved) with
  | false =>
    simp only [hmv, Bool.false_and, if_false]
    rw [hmv] at hfrag
    rw [if_neg (by simp)]
    cases hrs : synthResults compress false paths with
    | nil => decide
    | cons r rest =>
      exact sw_false_of_head (c := ('.')) rfl
        (mergeResults_head _ (hrs ▸ hfrag) (by simp))
  | true =>
    have hne : paths ≠ [] := by
      intro h
      rw [h] at hmv
      simp at hmv
    have hrne := synthResults_ne compress true paths hne
    rw [hmv] at hfrag
    simp only [Bool.true_and]
    rw [if_pos (decide_eq_true (mergeResults_ne_dot _ hfrag hrne))]
    exact sw_append_self _ _

/-! ## C6 — the compression toggle changes only key spelling

The development mirrors the string-building functions with AST-building
functions (`EAst`), proves the render of each mirror equal to the string the
source builds, and shows the ordered leaf data of the AST — each selected
field's key-segment chain, relocation flag and source-reference text, listed
in render order — identical under both compression modes. -/

inductive EAst where
  | valE (mv : Bool) (s : Str)
  | objE (braces : Bool) (entries : List (Nat × (List Str × Bool × EAst)))
  | grpE (base : Str) (parents : List Str) (inner : EAst)
  | topE (hasMoved : Bool) (frags : List EAst)

theorem insOrd_perm (x : Nat × α) (l : List (Nat × α)) : (insOrd x l).Perm (x :: l) := by
  induction l with
  | nil => exact List.Perm.refl _
  | cons y ys ih =>
    unfold insOrd
    split
    · exact List.Perm.refl _
    · exact (ih.cons y).trans (List.Perm.swap x y ys)

theorem sortOrd_perm (l : List (Nat × α)) : (sortOrd l).Perm l := by
  induction l with
  | nil => exact List.Perm.refl _
  | cons x xs ih => exact (insOrd_perm x (sortOrd xs)).trans (ih.cons x)

theorem sortOrd_sizeOf [SizeOf α] (l : List (Nat × α)) :
    sizeOf (sortOrd l) = sizeOf l :=
  (sortOrd_perm l).sizeOf_eq_sizeOf

mutual
/-- The leaf data of an expression AST, in render order: for each leaf its
accumulated key-segment chain (quoted composite keys contributing their parts
one by one), its relocation flag, and its value text. -/
def leavesE : EAst → List (List Str × Bool × Str)
  | .valE mv s => [([], mv, s)]
  | .objE _ entries => leavesEntries (sortOrd entries)
  | .grpE base _ inner => (leavesE inner).map (fun x => (base :: x.1, x.2.1, x.2.2))
  | .topE _ frags => leavesList frags
termination_by e => sizeOf e
decreasing_by
  all_goals simp_wf
  all_goals try rw [sortOrd_sizeOf]
  all_goals omega
def leavesEntries : List (Nat × (List Str × Bool × EAst)) → List (List Str × Bool × Str)
  | [] => []
  | (_, (ps, _, e)) :: rest =>
    (leavesE e).map (fun x => (ps ++ x.1, x.2.1, x.2.2)) ++ leavesEntries rest
termination_by l => sizeOf l
decreasing_by
  all_goals simp_wf
  all_goals omega
def leavesList : List EAst → List (List Str × Bool × Str)
  | [] => []
  | e :: rest => leavesE e ++ leavesList rest
termination_by l => sizeOf l
decreasing_by
  all_goals simp_wf
  all_goals omega
end

def renderKey (ps : List Str) (q : Bool) : Str :=
  if q then quoteKey ps else List.intercalate (strL (".")) ps

mutual
/-- Render an expression AST back to the string the source functions build. -/
def renderE : EAst → Str
  | .valE _ s => s
  | .objE braces entries =>
    if braces then glueObjF (renderEntries entries) else glueObj (renderEntries entries)
  | .grpE base parents inner =>
    if parents.isEmpty then strL ("[.[] | ") ++ renderE inner ++ strL ("]")
    else parents.foldr (fun seg acc => [('{')] ++ seg ++ strL (": ") ++ acc ++ [('}')])
        ([('[')] ++ base ++ strL (" | ") ++ renderE inner ++ strL ("]"))
  | .topE hm frags => finalAssemble hm (renderList frags)
def renderEntries : List (Nat × (List Str × Bool × EAst)) → List (Nat × Str)
  | [] => []
  | (o, (ps, q, e)) :: rest =>
    (o, renderKey ps q ++ strL (": ") ++ renderE e) :: renderEntries rest
def renderList : List EAst → List Str
  | [] => []
  | e :: rest => renderE e :: renderList rest
end

def renderKE (x : List Str × Bool × EAst) : Str :=
  renderKey x.1 x.2.1 ++ strL (": ") ++ renderE x.2.2

mutual
/-- AST mirror of `treeParts`. -/
def treePartsA (compress useRoot : Bool) : List (Str × TrieV) → List (Nat × (List Str × Bool × EAst))
  | [] => []
  | (k, v) :: rest => (ordOfT v, entryA compress useRoot k v) :: treePartsA compress useRoot rest
/-- AST mirror of `entryToStr`. -/
def entryA (compress useRoot : Bool) (k : Str) : TrieV → List Str × Bool × EAst
  | .leafV sp _ mv =>
    ([k], false, .valE mv ((if mv && useRoot then strL ("$root") else []) ++ sp))
  | .branchV _ [(ck, cv)] =>
    if compress then compressWalkA compress useRoot [k] ck cv
    else ([k], false, .objE false (treePartsA compress useRoot [(ck, cv)]))
  | .branchV _ cs => ([k], false, .objE false (treePartsA compress useRoot cs))
/-- AST mirror of `compressWalk`. -/
def compressWalkA (compress useRoot : Bool) (pathParts : List Str) (ck : Str) :
    TrieV → List Str × Bool × EAst
  | .leafV sp _ mv =>
    (pathParts ++ [ck], true, .valE mv ((if mv && useRoot then strL ("$root") else []) ++ sp))
  | .branchV _ [(ck2, cv2)] => compressWalkA compress useRoot (pathParts ++ [ck]) ck2 cv2
  | .branchV _ ccs => (pathParts ++ [ck], true, .objE false (treePartsA compress useRoot ccs))
end

mutual
/-- AST mirror of `fieldParts`. -/
def fieldPartsA (compress useRoot : Bool) (base : Str) :
    List (Str × TrieV) → List (Nat × (List Str × Bool × EAst))
  | [] => []
  | (k, v) :: rest =>
    (ordOfT v, fieldEntryA compress useRoot base k v) :: fieldPartsA compress useRoot base rest
/-- AST mirror of `fieldEntryToStr`. -/
def fieldEntryA (compress useRoot : Bool) (base : Str) (k : Str) : TrieV → List Str × Bool × EAst
  | .leafV sp _ mv =>
    ([k], false, .valE mv (if mv then (if useRoot then strL ("$root") else []) ++ sp
                           else relOf base sp))
  | .branchV _ [(ck, cv)] =>
    if compress then fieldCompressWalkA compress useRoot base [k] ck cv
    else ([k], false, .objE true (fieldPartsA compress useRoot base [(ck, cv)]))
  | .branchV _ cs => ([k], false, .objE true (fieldPartsA compress useRoot base cs))
/-- AST mirror of `fieldCompressWalk`. -/
def fieldCompressWalkA (compress useRoot : Bool) (base : Str) (pathParts : List Str)
    (ck : Str) : TrieV → List Str × Bool × EAst
  | .leafV sp _ mv =>
    (pathParts ++ [ck], true, .valE mv (if mv then (if useRoot then strL ("$root") else []) ++ sp
                                        else relOf base sp))
  | .branchV _ [(ck2, cv2)] => fieldCompressWalkA compress useRoot base (pathParts ++ [ck]) ck2 cv2
  | .branchV _ ccs => (pathParts ++ [ck], true, .objE true (fieldPartsA compress useRoot base ccs))
end

/-- AST mirror of `groupExpr`. -/
def groupExprA (compress useRoot : Bool) (base : Str) (items : List GItem) : EAst :=
  let sorted := (sortOrd (items.map (fun it => (it.order, it)))).map (·.2)
  let ft := sorted.foldl (fun t it => ftInsert t it.rest it.sourcePath it.isMoved it.order) []
  .grpE base (parentSegsOf base) (.objE true (fieldPartsA compress useRoot base ft))

/-- AST mirror of `buildNestedExpr`. -/
def buildNestedExprA (compress : Bool) (paths : List SEntry) : EAst :=
  let hm := paths.any (·.isMoved)
  let parsed := paths.map parseEntry
  let arrayPaths := parsed.filter (fun p => p.displaySegments.any (fun s => jsEndsWith s (strL ("[]"))))
  let nonArrayPaths := parsed.filter (fun p => !p.displaySegments.any (fun s => jsEndsWith s (strL ("[]"))))
  .topE hm
    ((if nonArrayPaths.isEmpty then []
      else [.objE false (treePartsA compress hm (buildTreeWithOrder nonArrayPaths))])
     ++ (if arrayPaths.isEmpty then []
      else (buildGroups arrayPaths).map (fun g => groupExprA compress hm g.1 g.2)))

theorem intercalate_single (sep x : Str) : List.intercalate sep [x] = x := by
  simp [List.intercalate]

mutual
/-- Rendering the AST mirror of one trie level recovers exactly the string
parts the source `treeToExpr` builds. -/
theorem renderEntries_treePartsA (c u : Bool) (t : List (Str × TrieV)) :
    renderEntries (treePartsA c u t) = treeParts c u t := by
  match t with
  | [] => simp [treePartsA, treeParts, renderEntries]
  | (k, v) :: rest =>
    have h1 := renderKE_entryA c u k v
    have h2 := renderEntries_treePartsA c u rest
    rcases hv : entryA c u k v with ⟨ps, q, e⟩
    rw [hv] at h1
    simp only [renderKE] at h1
    simp only [treePartsA, treeParts, hv, renderEntries, h2]
    simp [h1]
termination_by sizeOf t
decreasing_by all_goals simp_wf; all_goals omega

/-- Rendering the AST mirror of one entry recovers the source `entryToStr`. -/
theorem renderKE_entryA (c u : Bool) (k : Str) (v : TrieV) :
    renderKE (entryA c u k v) = entryToStr c u k v := by
  match v with
  | .leafV sp o mv =>
    simp [entryA, entryToStr, renderKE, renderE, renderKey, intercalate_single,
      List.append_assoc]
  | .branchV o [(ck, cv)] =>
    by_cases hc : c = true
    · subst hc
      simpa [entryA, entryToStr] using renderKE_compressWalkA true u [k] ck cv
    · have hcf : c = false := by revert hc; cases c <;> simp
      subst hcf
      simp [entryA, entryToStr, renderKE, renderE, renderKey, intercalate_single,
        renderEntries_treePartsA false u [(ck, cv)]]
  | .branchV o [] =>
    simp [entryA, entryToStr, renderKE, renderE, renderKey, intercalate_single,
      renderEntries_treePartsA c u []]
  | .branchV o ((k1, v1) :: (k2, v2) :: cs) =>
    simp [entryA, entryToStr, renderKE, renderE, renderKey, intercalate_single,
      renderEntries_treePartsA c u ((k1, v1) :: (k2, v2) :: cs)]
termination_by sizeOf v
decreasing_by all_goals simp_wf; all_goals omega

/-- Rendering the AST mirror of the compression walk recovers the source
`compressWalk`. -/
theorem renderKE_compressWalkA (c u : Bool) (pp : List Str) (ck : Str) (v : TrieV) :
    renderKE (compressWalkA c u pp ck v) = compressWalk c u pp ck v := by
  match v with
  | .leafV sp o mv =>
    simp [compressWalkA, compressWalk, renderKE, renderE, renderKey, List.append_assoc]
  | .branchV o [(ck2, cv2)] =>
    simpa [compressWalkA, compressWalk] using
      renderKE_compressWalkA c u (pp ++ [ck]) ck2 cv2
  | .branchV o [] =>
    simp [compressWalkA, compressWalk, renderKE, renderE, renderKey,
      renderEntries_treePartsA c u []]
  | .branchV o ((k1, v1) :: (k2, v2) :: cs) =>
    simp [compressWalkA, compressWalk, renderKE, renderE, renderKey,
      renderEntries_treePartsA c u ((k1, v1) :: (k2, v2) :: cs)]
termination_by sizeOf v
decreasing_by all_goals simp_wf; all_goals omega
end

mutual
/-- Rendering the AST mirror of one field-trie level recovers the string parts
the source `fieldTreeToExpr` builds. -/
theorem renderEntries_fieldPartsA (c u : Bool) (b : Str) (t : List (Str × TrieV)) :
    renderEntries (fieldPartsA c u b t) = fieldParts c u b t := by
  match t with
  | [] => simp [fieldPartsA, fieldParts, renderEntries]
  | (k, v) :: rest =>
    have h1 := renderKE_fieldEntryA c u b k v
    have h2 := renderEntries_fieldPartsA c u b rest
    rcases hv : fieldEntryA c u b k v with ⟨ps, q, e⟩
    rw [hv] at h1
    simp only [renderKE] at h1
    simp only [fieldPartsA, fieldParts, hv, renderEntries, h2]
    simp [h1]
termination_by sizeOf t
decreasing_by all_goals simp_wf; all_goals omega

/-- Rendering the AST mirror of one field entry recovers the source
`fieldEntryToStr`. -/
theorem renderKE_fieldEntryA (c u : Bool) (b : Str) (k : Str) (v : TrieV) :
    renderKE (fieldEntryA c u b k v) = fieldEntryToStr c u b k v := by
  match v with
  | .leafV sp o mv =>
    cases mv <;>
      simp [fieldEntryA, fieldEntryToStr, renderKE, renderE, renderKey,
        intercalate_single, List.append_assoc]
  | .branchV o [(ck, cv)] =>
    by_cases hc : c = true
    · subst hc
      simpa [fieldEntryA, fieldEntryToStr] using
        renderKE_fieldCompressWalkA true u b [k] ck cv
    · have hcf : c = false := by revert hc; cases c <;> simp
      subst hcf
      simp [fieldEntryA, fieldEntryToStr, renderKE, renderE, renderKey,
        intercalate_single, renderEntries_fieldPartsA false u b [(ck, cv)]]
  | .branchV o [] =>
    simp [fieldEntryA, fieldEntryToStr, renderKE, renderE, renderKey,
      intercalate_single, renderEntries_fieldPartsA c u b []]
  | .branchV o ((k1, v1) :: (k2, v2) :: cs) =>
    simp [fieldEntryA, fieldEntryToStr, renderKE, renderE, renderKey,
      intercalate_single, renderEntries_fieldPartsA c u b ((k1, v1) :: (k2, v2) :: cs)]
termination_by sizeOf v
decreasing_by all_goals simp_wf; all_goals omega

/-- Rendering the AST mirror of the field compression walk recovers the source
`fieldCompressWalk`. -/
theorem renderKE_fieldCompressWalkA (c u : Bool) (b : Str) (pp : List Str) (ck : Str)
    (v : TrieV) :
    renderKE (fieldCompressWalkA c u b pp ck v) = fieldCompressWalk c u b pp ck v := by
  match v with
  | .leafV sp o mv =>
    cases mv <;>
      simp [fieldCompressWalkA, fieldCompressWalk, renderKE, renderE, renderKey,
        List.append_assoc]
  | .branchV o [(ck2, cv2)] =>
    simpa [fieldCompressWalkA, fieldCompressWalk] using
      renderKE_fieldCompressWalkA c u b (pp ++ [ck]) ck2 cv2
  | .branchV o [] =>
    simp [fieldCompressWalkA, fieldCompressWalk, renderKE, renderE, renderKey,
      renderEntries_fieldPartsA c u b []]
  | .branchV o ((k1, v1) :: (k2, v2) :: cs) =>
    simp [fieldCompressWalkA, fieldCompressWalk, renderKE, renderE, renderKey,
      renderEntries_fieldPartsA c u b ((k1, v1) :: (k2, v2) :: cs)]
termination_by sizeOf v
decreasing_by all_goals simp_wf; all_goals omega
end

/-- Rendering the AST mirror of one array group recovers the source
`groupExpr`. -/
theorem renderE_groupExprA (c u : Bool) (b : Str) (items : List GItem) :
    renderE (groupExprA c u b items) = groupExpr c u b items := by
  simp only [groupExprA, groupExpr, renderE, fieldTreeToExpr,
    renderEntries_fieldPartsA, if_true]

theorem renderList_append (a b : List EAst) :
    renderList (a ++ b) = renderList a ++ renderList b := by
  induction a with
  | nil => simp [renderList]
  | cons x xs ih => simp [renderList, ih]

theorem renderList_map_groupExprA (c u : Bool) (gs : List (Str × List GItem)) :
    renderList (gs.map (fun g => groupExprA c u g.1 g.2))
      = gs.map (fun g => groupExpr c u g.1 g.2) := by
  induction gs with
  | nil => simp [renderList]
  | cons g gs ih => simp [renderList, renderE_groupExprA, ih]

/-- Rendering the AST mirror of the whole synthesizer recovers the string the
source `buildNestedExpr` produces, for either compression mode. -/
theorem renderE_buildNestedExprA (c : Bool) (paths : List SEntry) :
    renderE (buildNestedExprA c paths) = buildNestedExpr c paths := by
  simp only [buildNestedExprA, buildNestedExpr, synthResults, buildArrayExpr,
    renderE, renderList_append]
  congr 1
  split
  · split
    · simp [renderList]
    · simp [renderList, renderList_map_groupExprA]
  · split
    · simp [renderList, renderE, treeToExpr, renderEntries_treePartsA]
    · simp [renderList, renderE, treeToExpr, renderEntries_treePartsA,
        renderList_map_groupExprA]

/-- The leaf data contributed by one rendered entry `(keyParts, quoted, ast)`:
the leaves of the sub-AST with the entry's key segments prepended (the quoting
flag is spelling only and contributes nothing). -/
def leavesT (x : List Str × Bool × EAst) : List (List Str × Bool × Str) :=
  (leavesE x.2.2).map (fun t => (x.1 ++ t.1, t.2.1, t.2.2))

/-- Two ordered entries carry the same sort key and the same leaf data. -/
def entRel (x y : Nat × (List Str × Bool × EAst)) : Prop :=
  x.1 = y.1 ∧ leavesT x.2 = leavesT y.2

theorem insOrd_rel {x y : Nat × (List Str × Bool × EAst)}
    {l1 l2 : List (Nat × (List Str × Bool × EAst))} (hx : entRel x y)
    (hl : List.Forall₂ entRel l1 l2) :
    List.Forall₂ entRel (insOrd x l1) (insOrd y l2) := by
  induction hl with
  | nil => exact List.Forall₂.cons hx List.Forall₂.nil
  | cons hab hrest ih =>
    rename_i a b as bs
    simp only [insOrd, hx.1, hab.1]
    split
    · exact List.Forall₂.cons hx (List.Forall₂.cons hab hrest)
    · exact List.Forall₂.cons hab ih

theorem sortOrd_rel {l1 l2 : List (Nat × (List Str × Bool × EAst))}
    (hl : List.Forall₂ entRel l1 l2) :
    List.Forall₂ entRel (sortOrd l1) (sortOrd l2) := by
  induction hl with
  | nil => exact List.Forall₂.nil
  | cons hab hrest ih => exact insOrd_rel hab ih

theorem leavesEntries_congr {l1 l2 : List (Nat × (List Str × Bool × EAst))}
    (hl : List.Forall₂ entRel l1 l2) :
    leavesEntries l1 = leavesEntries l2 := by
  induction hl with
  | nil => rfl
  | cons hab hrest ih =>
    rename_i a b as bs
    rcases a with ⟨o1, ps1, q1, e1⟩
    rcases b with ⟨o2, ps2, q2, e2⟩
    simp only [leavesEntries, ih]
    have := hab.2
    simp only [leavesT] at this
    simp only [this]

theorem map_prefix_prefix (a b : List Str) (l : List (List Str × Bool × Str)) :
    (l.map (fun t => (b ++ t.1, t.2.1, t.2.2))).map (fun t => (a ++ t.1, t.2.1, t.2.2))
      = l.map (fun t => ((a ++ b) ++ t.1, t.2.1, t.2.2)) := by
  simp [List.map_map, Function.comp, List.append_assoc]

/-- A single-child nested object contributes the child entry's leaves under the
parent key. -/
theorem leavesT_nested_single (c u : Bool) (k ck : Str) (cv : TrieV) :
    leavesT ([k], false, .objE false (treePartsA c u [(ck, cv)]))
      = (leavesT (entryA c u ck cv)).map (fun t => ([k] ++ t.1, t.2.1, t.2.2)) := by
  rcases hx : entryA c u ck cv with ⟨ps, q, e⟩
  simp [leavesT, leavesE, treePartsA, sortOrd, insOrd, leavesEntries, hx,
    List.map_map, Function.comp, List.append_assoc]

mutual
/-- Compression invariance at one trie level: with compression on and off the
entries carry the same sort keys and the same leaf data. -/
theorem treePartsA_rel (u : Bool) (t : List (Str × TrieV)) :
    List.Forall₂ entRel (treePartsA true u t) (treePartsA false u t) := by
  match t with
  | [] => exact List.Forall₂.nil
  | (k, v) :: rest =>
    exact List.Forall₂.cons (entryA_rel u k v) (treePartsA_rel u rest)
termination_by sizeOf t
decreasing_by all_goals simp_wf; all_goals omega

/-- Compression invariance for one entry. -/
theorem entryA_rel (u : Bool) (k : Str) (v : TrieV) :
    entRel (ordOfT v, entryA true u k v) (ordOfT v, entryA false u k v) := by
  match v with
  | .leafV sp o mv => exact ⟨rfl, rfl⟩
  | .branchV o [(ck, cv)] =>
    refine ⟨rfl, ?_⟩
    show leavesT (entryA true u k (.branchV o [(ck, cv)]))
        = leavesT (entryA false u k (.branchV o [(ck, cv)]))
    have h1 : entryA true u k (.branchV o [(ck, cv)])
        = compressWalkA true u [k] ck cv := by simp [entryA]
    have h2 : entryA false u k (.branchV o [(ck, cv)])
        = ([k], false, .objE false (treePartsA false u [(ck, cv)])) := by simp [entryA]
    rw [h1, h2, compressWalkA_leaves u [k] ck cv, leavesT_nested_single]
  | .branchV o [] =>
    refine ⟨rfl, ?_⟩
    have h := leavesEntries_congr (sortOrd_rel (treePartsA_rel u ([] : List (Str × TrieV))))
    simp [entryA, leavesT, leavesE, h]
  | .branchV o ((k1, v1) :: (k2, v2) :: cs) =>
    refine ⟨rfl, ?_⟩
    have h := leavesEntries_congr (sortOrd_rel (treePartsA_rel u ((k1, v1) :: (k2, v2) :: cs)))
    simp [entryA, leavesT, leavesE, h]
termination_by sizeOf v
decreasing_by all_goals simp_wf; all_goals omega

/-- The compression walk contributes exactly the leaves of the corresponding
uncompressed nested entry, shifted under the accumulated key segments. -/
theorem compressWalkA_leaves (u : Bool) (pp : List Str) (ck : Str) (v : TrieV) :
    leavesT (compressWalkA true u pp ck v)
      = (leavesT (entryA false u ck v)).map (fun t => (pp ++ t.1, t.2.1, t.2.2)) := by
  match v with
  | .leafV sp o mv =>
    simp [compressWalkA, entryA, leavesT, leavesE, List.append_assoc]
  | .branchV o [(ck2, cv2)] =>
    have h1 : compressWalkA true u pp ck (.branchV o [(ck2, cv2)])
        = compressWalkA true u (pp ++ [ck]) ck2 cv2 := by simp [compressWalkA]
    have h2 : entryA false u ck (.branchV o [(ck2, cv2)])
        = ([ck], false, .objE false (treePartsA false u [(ck2, cv2)])) := by simp [entryA]
    rw [h1, h2, compressWalkA_leaves u (pp ++ [ck]) ck2 cv2, leavesT_nested_single,
      map_prefix_prefix]
  | .branchV o [] =>
    have h := leavesEntries_congr (sortOrd_rel (treePartsA_rel u ([] : List (Str × TrieV))))
    simp [compressWalkA, entryA, leavesT, leavesE, h, List.map_map, Function.comp,
      List.append_assoc]
  | .branchV o ((k1, v1) :: (k2, v2) :: cs) =>
    have h := leavesEntries_congr (sortOrd_rel (treePartsA_rel u ((k1, v1) :: (k2, v2) :: cs)))
    simp [compressWalkA, entryA, leavesT, leavesE, h, List.map_map, Function.comp,
      List.append_assoc]
termination_by sizeOf v
decreasing_by all_goals simp_wf; all_goals omega
end

/-- Field-trie analogue of `leavesT_nested_single` (braced nested objects). -/
theorem leavesT_nested_singleF (c u : Bool) (b : Str) (k ck : Str) (cv : TrieV) :
    leavesT ([k], false, .objE true (fieldPartsA c u b [(ck, cv)]))
      = (leavesT (fieldEntryA c u b ck cv)).map (fun t => ([k] ++ t.1, t.2.1, t.2.2)) := by
  rcases hx : fieldEntryA c u b ck cv with ⟨ps, q, e⟩
  simp [leavesT, leavesE, fieldPartsA, sortOrd, insOrd, leavesEntries, hx,
    List.map_map, Function.comp, List.append_assoc]

mutual
/-- Compression invariance at one field-trie level. -/
theorem fieldPartsA_rel (u : Bool) (b : Str) (t : List (Str × TrieV)) :
    List.Forall₂ entRel (fieldPartsA true u b t) (fieldPartsA false u b t) := by
  match t with
  | [] => exact List.Forall₂.nil
  | (k, v) :: rest =>
    exact List.Forall₂.cons (fieldEntryA_rel u b k v) (fieldPartsA_rel u b rest)
termination_by sizeOf t
decreasing_by all_goals simp_wf; all_goals omega

/-- Compression invariance for one field entry. -/
theorem fieldEntryA_rel (u : Bool) (b : Str) (k : Str) (v : TrieV) :
    entRel (ordOfT v, fieldEntryA true u b k v) (ordOfT v, fieldEntryA false u b k v) := by
  match v with
  | .leafV sp o mv => exact ⟨rfl, rfl⟩
  | .branchV o [(ck, cv)] =>
    refine ⟨rfl, ?_⟩
    have h1 : fieldEntryA true u b k (.branchV o [(ck, cv)])
        = fieldCompressWalkA true u b [k] ck cv := by simp [fieldEntryA]
    have h2 : fieldEntryA false u b k (.branchV o [(ck, cv)])
        = ([k], false, .objE true (fieldPartsA false u b [(ck, cv)])) := by
      simp [fieldEntryA]
    rw [h1, h2, fieldCompressWalkA_leaves u b [k] ck cv, leavesT_nested_singleF]
  | .branchV o [] =>
    refine ⟨rfl, ?_⟩
    have h := leavesEntries_congr (sortOrd_rel (fieldPartsA_rel u b ([] : List (Str × TrieV))))
    simp [fieldEntryA, leavesT, leavesE, h]
  | .branchV o ((k1, v1) :: (k2, v2) :: cs) =>
    refine ⟨rfl, ?_⟩
    have h := leavesEntries_congr
      (sortOrd_rel (fieldPartsA_rel u b ((k1, v1) :: (k2, v2) :: cs)))
    simp [fieldEntryA, leavesT, leavesE, h]
termination_by sizeOf v
decreasing_by all_goals simp_wf; all_goals omega

/-- The field compression walk contributes exactly the leaves of the
corresponding uncompressed nested entry, shifted under the accumulated key
segments. -/
theorem fieldCompressWalkA_leaves (u : Bool) (b : Str) (pp : List Str) (ck : Str)
    (v : TrieV) :
    leavesT (fieldCompressWalkA true u b pp ck v)
      = (leavesT (fieldEntryA false u b ck v)).map (fun t => (pp ++ t.1, t.2.1, t.2.2)) := by
  match v with
  | .leafV sp o mv =>
    cases mv <;>
      simp [fieldCompressWalkA, fieldEntryA, leavesT, leavesE, List.append_assoc]
  | .branchV o [(ck2, cv2)] =>
    have h1 : fieldCompressWalkA true u b pp ck (.branchV o [(ck2, cv2)])
        = fieldCompressWalkA true u b (pp ++ [ck]) ck2 cv2 := by simp [fieldCompressWalkA]
    have h2 : fieldEntryA false u b ck (.branchV o [(ck2, cv2)])
        = ([ck], false, .objE true (fieldPartsA false u b [(ck2, cv2)])) := by
      simp [fieldEntryA]
    rw [h1, h2, fieldCompressWalkA_leaves u b (pp ++ [ck]) ck2 cv2,
      leavesT_nested_singleF, map_prefix_prefix]
  | .branchV o [] =>
    have h := leavesEntries_congr (sortOrd_rel (fieldPartsA_rel u b ([] : List (Str × TrieV))))
    simp [fieldCompressWalkA, fieldEntryA, leavesT, leavesE, h, List.map_map,
      Function.comp, List.append_assoc]
  | .branchV o ((k1, v1) :: (k2, v2) :: cs) =>
    have h := leavesEntries_congr
      (sortOrd_rel (fieldPartsA_rel u b ((k1, v1) :: (k2, v2) :: cs)))
    simp [fieldCompressWalkA, fieldEntryA, leavesT, leavesE, h, List.map_map,
      Function.comp, List.append_assoc]
termination_by sizeOf v
decreasing_by all_goals simp_wf; all_goals omega
end

/-- One array group has the same leaf data under both compression modes. -/
theorem leavesE_groupExprA (u : Bool) (b : Str) (items : List GItem) :
    leavesE (groupExprA true u b items) = leavesE (groupExprA false u b items) := by
  simp only [groupExprA, leavesE]
  rw [leavesEntries_congr (sortOrd_rel (fieldPartsA_rel u b _))]

theorem leavesList_append (a b : List EAst) :
    leavesList (a ++ b) = leavesList a ++ leavesList b := by
  induction a with
  | nil => simp [leavesList]
  | cons x xs ih => simp [leavesList, ih, List.append_assoc]

theorem leavesList_map_groupExprA (u : Bool) (gs : List (Str × List GItem)) :
    leavesList (gs.map (fun g => groupExprA true u g.1 g.2))
      = leavesList (gs.map (fun g => groupExprA false u g.1 g.2)) := by
  induction gs with
  | nil => rfl
  | cons g gs ih => simp [leavesList, leavesE_groupExprA, ih]

/-- C6: toggling path compression changes only key spelling in the generated
expression.  The AST mirror `buildNestedExprA` renders (via `renderE`) to
exactly the string the source `buildNestedExpr` builds in either mode, and its
ordered leaf data — each selected field's key-segment chain, relocation flag
and source-reference text, listed in render order — is identical with
compression on and off, so the set and order of selected fields and the data
the expression extracts do not depend on the toggle. -/
theorem compression_changes_spelling_only (paths : List SEntry) :
    leavesE (buildNestedExprA true paths) = leavesE (buildNestedExprA false paths)
    ∧ ∀ c, buildNestedExpr c paths = renderE (buildNestedExprA c paths) := by
  constructor
  · simp only [buildNestedExprA, leavesE]
    rw [leavesList_append, leavesList_append]
    congr 1
    · split
      · rfl
      · simp only [leavesList, leavesE]
        rw [leavesEntries_congr (sortOrd_rel (treePartsA_rel _ _))]
    · split
      · rfl
      · exact leavesList_map_groupExprA _ _
  · intro c
    exact (renderE_buildNestedExprA c paths).symm

/-! ## C9 — the root-binding clause and the root-variable leaf prefixes -/

mutual
/-- Every leaf of the trie stores a dot-led source path, and carries the moved
flag only when the render is invoked with `useRoot` set (which
`buildNestedExpr` guarantees: `useRoot` is `hasMoved`). -/
def leafOkT (u : Bool) : TrieV → Bool
  | .leafV sp _ mv => jsStartsWith sp (strL (".")) && (!mv || u)
  | .branchV _ cs => leafOkL u cs
def leafOkL (u : Bool) : List (Str × TrieV) → Bool
  | [] => true
  | (_, v) :: rest => leafOkT u v && leafOkL u rest
end

theorem leafOkL_mem {u : Bool} {t : List (Str × TrieV)} {k : Str} {v : TrieV}
    (ht : leafOkL u t = true) (hm : (k, v) ∈ t) : leafOkT u v = true := by
  induction t with
  | nil => simp at hm
  | cons x rest ih =>
    rcases x with ⟨k1, v1⟩
    simp only [leafOkL, Bool.and_eq_true] at ht
    rcases List.mem_cons.mp hm with h | h
    · cases h; exact ht.1
    · exact ih ht.2 h

theorem mset_ok {u : Bool} {t : List (Str × TrieV)} {k : Str} {v : TrieV}
    (ht : leafOkL u t = true) (hv : leafOkT u v = true) :
    leafOkL u (mset t k v) = true := by
  induction t with
  | nil => simp [mset, leafOkL, hv]
  | cons x rest ih =>
    rcases x with ⟨k1, v1⟩
    simp only [leafOkL, Bool.and_eq_true] at ht
    simp only [mset]
    split
    · simp [leafOkL, hv, ht.2]
    · simp [leafOkL, ht.1, ih ht.2]

theorem mget_ok {u : Bool} {t : List (Str × TrieV)} {k : Str} {v : TrieV}
    (ht : leafOkL u t = true) (hg : mget t k = some v) : leafOkT u v = true := by
  induction t with
  | nil => simp [mget] at hg
  | cons x rest ih =>
    rcases x with ⟨k1, v1⟩
    simp only [leafOkL, Bool.and_eq_true] at ht
    simp only [mget] at hg
    split at hg
    · cases hg; exact ht.1
    · exact ih ht.2 hg

theorem trieInsert_ok (u : Bool) (t : List (Str × TrieV)) (segs : List Str) (sp : Str)
    (ord : Nat) (mv : Bool) (ht : leafOkL u t = true)
    (hsp : jsStartsWith sp (strL (".")) = true) (hmv : mv = true → u = true) :
    leafOkL u (trieInsert t segs sp ord mv) = true := by
  match segs with
  | [] => simpa [trieInsert] using ht
  | [s] =>
    refine mset_ok ht ?_
    have hmu : (!mv || u) = true := by
      cases mv
      · rfl
      · simp [hmv rfl]
    simp [leafOkT, hsp, hmu]
  | s :: s2 :: rest =>
    simp only [trieInsert]
    cases hg : mget t s with
    | none =>
      refine mset_ok ht ?_
      simpa [leafOkT] using trieInsert_ok u [] (s2 :: rest) sp ord mv rfl hsp hmv
    | some w =>
      cases w with
      | leafV sp2 o2 mv2 =>
        refine mset_ok ht ?_
        simpa [leafOkT] using trieInsert_ok u [] (s2 :: rest) sp ord mv rfl hsp hmv
      | branchV o cs =>
        refine mset_ok ht ?_
        have hcs : leafOkL u cs = true := by simpa [leafOkT] using mget_ok ht hg
        simpa [leafOkT] using trieInsert_ok u cs (s2 :: rest) sp ord mv hcs hsp hmv

theorem ftInsert_ok (u : Bool) (t : List (Str × TrieV)) (segs : List Str) (sp : Str)
    (mv : Bool) (ord : Nat) (ht : leafOkL u t = true)
    (hsp : jsStartsWith sp (strL (".")) = true) (hmv : mv = true → u = true) :
    leafOkL u (ftInsert t segs sp mv ord) = true := by
  match segs with
  | [] => simpa [ftInsert] using ht
  | [s] =>
    refine mset_ok ht ?_
    have hmu : (!mv || u) = true := by
      cases mv
      · rfl
      · simp [hmv rfl]
    simp [leafOkT, hsp, hmu]
  | s :: s2 :: rest =>
    simp only [ftInsert]
    cases hg : mget t s with
    | none =>
      refine mset_ok ht ?_
      simpa [leafOkT] using ftInsert_ok u [] (s2 :: rest) sp mv ord rfl hsp hmv
    | some w =>
      cases w with
      | leafV sp2 o2 mv2 =>
        exact ftInsert_ok u t (s2 :: rest) sp mv ord ht hsp hmv
      | branchV o cs =>
        refine mset_ok ht ?_
        have hcs : leafOkL u cs = true := by simpa [leafOkT] using mget_ok ht hg
        simpa [leafOkT] using ftInsert_ok u cs (s2 :: rest) sp mv ord hcs hsp hmv

/-- Folding trie insertions of well-behaved entries preserves leaf
well-formedness. -/
theorem buildTreeWithOrder_ok (u : Bool) (ps : List PEntry)
    (h : ∀ p ∈ ps, jsStartsWith p.sourcePath (strL (".")) = true
      ∧ (p.isMoved = true → u = true)) :
    leafOkL u (buildTreeWithOrder ps) = true := by
  have key : ∀ (l : List PEntry) (t0 : List (Str × TrieV)), leafOkL u t0 = true →
      (∀ p ∈ l, jsStartsWith p.sourcePath (strL (".")) = true
        ∧ (p.isMoved = true → u = true)) →
      leafOkL u (l.foldl
        (fun t p => trieInsert t p.displaySegments p.sourcePath p.order p.isMoved) t0)
        = true := by
    intro l
    induction l with
    | nil => intro t0 ht _; simpa using ht
    | cons p rest ih =>
      intro t0 ht hl
      simp only [List.foldl_cons]
      exact ih _ (trieInsert_ok u t0 p.displaySegments p.sourcePath p.order p.isMoved
          ht (hl p (by simp)).1 (hl p (by simp)).2)
        (fun q hq => hl q (by simp [hq]))
  exact key ps [] rfl h

theorem ftFold_ok (u : Bool) (items : List GItem) (t0 : List (Str × TrieV))
    (ht : leafOkL u t0 = true)
    (h : ∀ it ∈ items, jsStartsWith it.sourcePath (strL (".")) = true
      ∧ (it.isMoved = true → u = true)) :
    leafOkL u (items.foldl
      (fun t it => ftInsert t it.rest it.sourcePath it.isMoved it.order) t0) = true := by
  induction items generalizing t0 with
  | nil => simpa using ht
  | cons it rest ih =>
    simp only [List.foldl_cons]
    exact ih _ (ftInsert_ok u t0 it.rest it.sourcePath it.isMoved it.order ht
        (h it (by simp)).1 (h it (by simp)).2)
      (fun q hq => h q (by simp [hq]))

theorem gpush_items (u : Bool) (g : List (Str × List GItem)) (k : Str) (x : GItem)
    (hg : ∀ e ∈ g, ∀ it ∈ e.2, jsStartsWith it.sourcePath (strL (".")) = true
      ∧ (it.isMoved = true → u = true))
    (hx : jsStartsWith x.sourcePath (strL (".")) = true ∧ (x.isMoved = true → u = true)) :
    ∀ e ∈ gpush g k x, ∀ it ∈ e.2, jsStartsWith it.sourcePath (strL (".")) = true
      ∧ (it.isMoved = true → u = true) := by
  induction g with
  | nil =>
    intro e he it hit
    simp [gpush] at he
    subst he
    simp at hit
    subst hit
    exact hx
  | cons y rest ih =>
    rcases y with ⟨k1, l⟩
    intro e he it hit
    simp only [gpush] at he
    split at he
    · rcases List.mem_cons.mp he with h1 | h1
      · subst h1
        rcases List.mem_append.mp hit with h2 | h2
        · exact hg (k1, l) (by simp) it h2
        · simp at h2
          subst h2
          exact hx
      · exact hg e (by simp [h1]) it hit
    · rcases List.mem_cons.mp he with h1 | h1
      · subst h1
        exact hg (k1, l) (by simp) it hit
      · exact ih (fun e2 he2 => hg e2 (by simp [he2])) e h1 it hit

/-- Every item stored in any array group inherits its source path and moved
flag from one of the folded entries. -/
theorem buildGroups_items (u : Bool) (ps : List PEntry)
    (h : ∀ p ∈ ps, jsStartsWith p.sourcePath (strL (".")) = true
      ∧ (p.isMoved = true → u = true)) :
    ∀ e ∈ buildGroups ps, ∀ it ∈ e.2,
      jsStartsWith it.sourcePath (strL (".")) = true
      ∧ (it.isMoved = true → u = true) := by
  have key : ∀ (l : List PEntry) (g0 : List (Str × List GItem)),
      (∀ e ∈ g0, ∀ it ∈ e.2, jsStartsWith it.sourcePath (strL (".")) = true
        ∧ (it.isMoved = true → u = true)) →
      (∀ p ∈ l, jsStartsWith p.sourcePath (strL (".")) = true
        ∧ (p.isMoved = true → u = true)) →
      ∀ e ∈ l.foldl (fun g p =>
          gpush g (baseOf p.displaySegments)
            { rest := p.displaySegments.drop (arrCut p.displaySegments)
              sourcePath := p.sourcePath
              order := p.order
              isMoved := p.isMoved }) g0, ∀ it ∈ e.2,
        jsStartsWith it.sourcePath (strL (".")) = true
        ∧ (it.isMoved = true → u = true) := by
    intro l
    induction l with
    | nil => intro g0 hg _ e he; exact hg e he
    | cons p rest ih =>
      intro g0 hg hl
      simp only [List.foldl_cons]
      exact ih _ (gpush_items u g0 _ _ hg ⟨(hl p (by simp)).1, (hl p (by simp)).2⟩)
        (fun q hq => hl q (by simp [hq]))
  exact key ps [] (by simp) h

theorem notRoot_of_dot {s : Str} (h : jsStartsWith s (strL (".")) = true) :
    jsStartsWith s (strL ("$root")) = false := by
  rcases jsStartsWith_iff.mp h with ⟨r, hr⟩
  refine sw_false_of_head rfl ?_
  rw [← hr]
  simp [strL]

theorem relOf_starts {base sp : Str} (h : jsStartsWith sp (strL (".")) = true) :
    jsStartsWith (relOf base sp) (strL (".")) = true := by
  unfold relOf
  split
  · dsimp only
    split
    case isTrue h2 => exact h2
    case isFalse h2 => exact sw_append_self _ _
  · exact h

theorem leavesEntries_mem {l : List Str × Bool × Str}
    {es : List (Nat × (List Str × Bool × EAst))} (h : l ∈ leavesEntries es) :
    ∃ x ∈ es, l ∈ leavesT x.2 := by
  induction es with
  | nil => simp [leavesEntries] at h
  | cons x rest ih =>
    rcases x with ⟨o, ps, q, e⟩
    simp only [leavesEntries] at h
    rcases List.mem_append.mp h with h1 | h1
    · exact ⟨(o, ps, q, e), by simp, by simpa [leavesT] using h1⟩
    · obtain ⟨y, hy1, hy2⟩ := ih h1
      exact ⟨y, by simp [hy1], hy2⟩

theorem treePartsA_mem {c u : Bool} {t : List (Str × TrieV)}
    {x : Nat × (List Str × Bool × EAst)} (h : x ∈ treePartsA c u t) :
    ∃ kv ∈ t, x = (ordOfT kv.2, entryA c u kv.1 kv.2) := by
  induction t with
  | nil => simp [treePartsA] at h
  | cons kv rest ih =>
    rcases kv with ⟨k, v⟩
    simp only [treePartsA] at h
    rcases List.mem_cons.mp h with h1 | h1
    · exact ⟨(k, v), by simp, h1⟩
    · obtain ⟨y, hy1, hy2⟩ := ih h1
      exact ⟨y, by simp [hy1], hy2⟩

theorem fieldPartsA_mem {c u : Bool} {b : Str} {t : List (Str × TrieV)}
    {x : Nat × (List Str × Bool × EAst)} (h : x ∈ fieldPartsA c u b t) :
    ∃ kv ∈ t, x = (ordOfT kv.2, fieldEntryA c u b kv.1 kv.2) := by
  induction t with
  | nil => simp [fieldPartsA] at h
  | cons kv rest ih =>
    rcases kv with ⟨k, v⟩
    simp only [fieldPartsA] at h
    rcases List.mem_cons.mp h with h1 | h1
    · exact ⟨(k, v), by simp, h1⟩
    · obtain ⟨y, hy1, hy2⟩ := ih h1
      exact ⟨y, by simp [hy1], hy2⟩

/-- Decompose a leaf of a rendered object into a leaf of one of its entries
(the entry sort permutes but does not create or alter leaves). -/
theorem leavesT_objE_mem {l : List Str × Bool × Str} {ps : List Str} {q braces : Bool}
    {es : List (Nat × (List Str × Bool × EAst))}
    (h : l ∈ leavesT (ps, q, .objE braces es)) :
    ∃ x ∈ es, ∃ lp, lp ∈ leavesT x.2 ∧ l.2 = lp.2 := by
  simp only [leavesT, leavesE] at h
  obtain ⟨t, ht1, ht2⟩ := List.mem_map.mp h
  obtain ⟨x, hx1, hx2⟩ := leavesEntries_mem ht1
  exact ⟨x, (sortOrd_perm es).mem_iff.mp hx1, t, hx2, by rw [← ht2]⟩

/-- A rendered leaf is consistent with its relocation flag: moved leaves read
through `$root`, unmoved leaves do not. -/
def RootPfxOk (l : List Str × Bool × Str) : Prop :=
  (l.2.1 = true → jsStartsWith l.2.2 (strL ("$root")) = true)
  ∧ (l.2.1 = false → jsStartsWith l.2.2 (strL ("$root")) = false)

theorem rootPfxOk_of_snd {l lp : List Str × Bool × Str} (h2 : l.2 = lp.2) :
    RootPfxOk lp → RootPfxOk l := by
  intro hp
  simp only [RootPfxOk, h2]
  exact hp

mutual
theorem entryA_leaf_ok (c u : Bool) (k : Str) (v : TrieV) (hv : leafOkT u v = true) :
    ∀ l ∈ leavesT (entryA c u k v), RootPfxOk l := by
  match v with
  | .leafV sp o mv =>
    intro l hl
    simp only [leafOkT, Bool.and_eq_true] at hv
    simp only [entryA, leavesT, leavesE, List.map] at hl
    simp only [List.mem_singleton] at hl
    subst hl
    cases mv with
    | false =>
      refine ⟨fun h => by simp at h, fun _ => ?_⟩
      simpa using notRoot_of_dot hv.1
    | true =>
      have hu : u = true := by simpa using hv.2
      subst hu
      refine ⟨fun _ => ?_, fun h => by simp at h⟩
      simpa using sw_append_self (strL ("$root")) sp
  | .branchV o [(ck, cv)] =>
    intro l hl
    have hcv : leafOkT u cv = true := by
      simp only [leafOkT, leafOkL, Bool.and_eq_true] at hv
      exact hv.1
    by_cases hc : c = true
    · subst hc
      rw [show entryA true u k (.branchV o [(ck, cv)])
          = compressWalkA true u [k] ck cv by simp [entryA]] at hl
      exact compressWalkA_leaf_ok true u [k] ck cv hcv l hl
    · have hcf : c = false := by revert hc; cases c <;> simp
      subst hcf
      rw [show entryA false u k (.branchV o [(ck, cv)])
          = ([k], false, .objE false (treePartsA false u [(ck, cv)])) by simp [entryA]] at hl
      rw [show treePartsA false u [(ck, cv)] = [(ordOfT cv, entryA false u ck cv)]
        from by simp [treePartsA]] at hl
      obtain ⟨x, hx, lp, hlp, h2⟩ := leavesT_objE_mem hl
      simp only [List.mem_singleton] at hx
      subst hx
      exact rootPfxOk_of_snd h2 (entryA_leaf_ok false u ck cv hcv lp (by simpa using hlp))
  | .branchV o [] =>
    intro l hl
    rw [show entryA c u k (.branchV o ([] : List (Str × TrieV)))
        = ([k], false, .objE false (treePartsA c u [])) by simp [entryA]] at hl
    obtain ⟨x, hx, lp, hlp, h2⟩ := leavesT_objE_mem hl
    simp [treePartsA] at hx
  | .branchV o ((k1, v1) :: (k2, v2) :: cs) =>
    intro l hl
    rw [show entryA c u k (.branchV o ((k1, v1) :: (k2, v2) :: cs))
        = ([k], false, .objE false (treePartsA c u ((k1, v1) :: (k2, v2) :: cs)))
      by simp [entryA]] at hl
    obtain ⟨x, hx, lp, hlp, h2⟩ := leavesT_objE_mem hl
    obtain ⟨⟨k3, v3⟩, hkv, hxe⟩ := treePartsA_mem hx
    have hv3 : leafOkT u v3 = true := by
      simp only [leafOkT] at hv
      exact leafOkL_mem hv hkv
    subst hxe
    exact rootPfxOk_of_snd h2 (entryA_leaf_ok c u k3 v3 hv3 lp hlp)
termination_by sizeOf v
decreasing_by
  all_goals simp_wf
  all_goals try (have hsz := List.sizeOf_lt_of_mem hkv; simp at hsz)
  all_goals omega

theorem compressWalkA_leaf_ok (c u : Bool) (pp : List Str) (ck : Str) (v : TrieV)
    (hv : leafOkT u v = true) :
    ∀ l ∈ leavesT (compressWalkA c u pp ck v), RootPfxOk l := by
  match v with
  | .leafV sp o mv =>
    intro l hl
    simp only [leafOkT, Bool.and_eq_true] at hv
    simp only [compressWalkA, leavesT, leavesE, List.map] at hl
    simp only [List.mem_singleton] at hl
    subst hl
    cases mv with
    | false =>
      refine ⟨fun h => by simp at h, fun _ => ?_⟩
      simpa using notRoot_of_dot hv.1
    | true =>
      have hu : u = true := by simpa using hv.2
      subst hu
      refine ⟨fun _ => ?_, fun h => by simp at h⟩
      simpa using sw_append_self (strL ("$root")) sp
  | .branchV o [(ck2, cv2)] =>
    intro l hl
    have hcv : leafOkT u cv2 = true := by
      simp only [leafOkT, leafOkL, Bool.and_eq_true] at hv
      exact hv.1
    rw [show compressWalkA c u pp ck (.branchV o [(ck2, cv2)])
        = compressWalkA c u (pp ++ [ck]) ck2 cv2 by simp [compressWalkA]] at hl
    exact compressWalkA_leaf_ok c u (pp ++ [ck]) ck2 cv2 hcv l hl
  | .branchV o [] =>
    intro l hl
    rw [show compressWalkA c u pp ck (.branchV o ([] : List (Str × TrieV)))
        = (pp ++ [ck], true, .objE false (treePartsA c u [])) by simp [compressWalkA]] at hl
    obtain ⟨x, hx, lp, hlp, h2⟩ := leavesT_objE_mem hl
    simp [treePartsA] at hx
  | .branchV o ((k1, v1) :: (k2, v2) :: cs) =>
    intro l hl
    rw [show compressWalkA c u pp ck (.branchV o ((k1, v1) :: (k2, v2) :: cs))
        = (pp ++ [ck], true, .objE false (treePartsA c u ((k1, v1) :: (k2, v2) :: cs)))
      by simp [compressWalkA]] at hl
    obtain ⟨x, hx, lp, hlp, h2⟩ := leavesT_objE_mem hl
    obtain ⟨⟨k3, v3⟩, hkv, hxe⟩ := treePartsA_mem hx
    have hv3 : leafOkT u v3 = true := by
      simp only [leafOkT] at hv
      exact leafOkL_mem hv hkv
    subst hxe
    exact rootPfxOk_of_snd h2 (entryA_leaf_ok c u k3 v3 hv3 lp hlp)
termination_by sizeOf v
decreasing_by
  all_goals simp_wf
  all_goals try (have hsz := List.sizeOf_lt_of_mem hkv; simp at hsz)
  all_goals omega
end

mutual
theorem fieldEntryA_leaf_ok (c u : Bool) (b : Str) (k : Str) (v : TrieV)
    (hv : leafOkT u v = true) :
    ∀ l ∈ leavesT (fieldEntryA c u b k v), RootPfxOk l := by
  match v with
  | .leafV sp o mv =>
    intro l hl
    simp only [leafOkT, Bool.and_eq_true] at hv
    simp only [fieldEntryA, leavesT, leavesE, List.map] at hl
    simp only [List.mem_singleton] at hl
    subst hl
    cases mv with
    | false =>
      refine ⟨fun h => by simp at h, fun _ => ?_⟩
      simpa using notRoot_of_dot (relOf_starts hv.1)
    | true =>
      have hu : u = true := by simpa using hv.2
      subst hu
      refine ⟨fun _ => ?_, fun h => by simp at h⟩
      simpa using sw_append_self (strL ("$root")) sp
  | .branchV o [(ck, cv)] =>
    intro l hl
    have hcv : leafOkT u cv = true := by
      simp only [leafOkT, leafOkL, Bool.and_eq_true] at hv
      exact hv.1
    by_cases hc : c = true
    · subst hc
      rw [show fieldEntryA true u b k (.branchV o [(ck, cv)])
          = fieldCompressWalkA true u b [k] ck cv by simp [fieldEntryA]] at hl
      exact fieldCompressWalkA_leaf_ok true u b [k] ck cv hcv l hl
    · have hcf : c = false := by revert hc; cases c <;> simp
      subst hcf
      rw [show fieldEntryA false u b k (.branchV o [(ck, cv)])
          = ([k], false, .objE true (fieldPartsA false u b [(ck, cv)]))
        by simp [fieldEntryA]] at hl
      rw [show fieldPartsA false u b [(ck, cv)] = [(ordOfT cv, fieldEntryA false u b ck cv)]
        from by simp [fieldPartsA]] at hl
      obtain ⟨x, hx, lp, hlp, h2⟩ := leavesT_objE_mem hl
      simp only [List.mem_singleton] at hx
      subst hx
      exact rootPfxOk_of_snd h2
        (fieldEntryA_leaf_ok false u b ck cv hcv lp (by simpa using hlp))
  | .branchV o [] =>
    intro l hl
    rw [show fieldEntryA c u b k (.branchV o ([] : List (Str × TrieV)))
        = ([k], false, .objE true (fieldPartsA c u b [])) by simp [fieldEntryA]] at hl
    obtain ⟨x, hx, lp, hlp, h2⟩ := leavesT_objE_mem hl
    simp [fieldPartsA] at hx
  | .branchV o ((k1, v1) :: (k2, v2) :: cs) =>
    intro l hl
    rw [show fieldEntryA c u b k (.branchV o ((k1, v1) :: (k2, v2) :: cs))
        = ([k], false, .objE true (fieldPartsA c u b ((k1, v1) :: (k2, v2) :: cs)))
      by simp [fieldEntryA]] at hl
    obtain ⟨x, hx, lp, hlp, h2⟩ := leavesT_objE_mem hl
    obtain ⟨⟨k3, v3⟩, hkv, hxe⟩ := fieldPartsA_mem hx
    have hv3 : leafOkT u v3 = true := by
      simp only [leafOkT] at hv
      exact leafOkL_mem hv hkv
    subst hxe
    exact rootPfxOk_of_snd h2 (fieldEntryA_leaf_ok c u b k3 v3 hv3 lp hlp)
termination_by sizeOf v
decreasing_by
  all_goals simp_wf
  all_goals try (have hsz := List.sizeOf_lt_of_mem hkv; simp at hsz)
  all_goals omega

theorem fieldCompressWalkA_leaf_ok (c u : Bool) (b : Str) (pp : List Str) (ck : Str)
    (v : TrieV) (hv : leafOkT u v = true) :
    ∀ l ∈ leavesT (fieldCompressWalkA c u b pp ck v), RootPfxOk l := by
  match v with
  | .leafV sp o mv =>
    intro l hl
    simp only [leafOkT, Bool.and_eq_true] at hv
    simp only [fieldCompressWalkA, leavesT, leavesE, List.map] at hl
    simp only [List.mem_singleton] at hl
    subst hl
    cases mv with
    | false =>
      refine ⟨fun h => by simp at h, fun _ => ?_⟩
      simpa using notRoot_of_dot (relOf_starts hv.1)
    | true =>
      have hu : u = true := by simpa using hv.2
      subst hu
      refine ⟨fun _ => ?_, fun h => by simp at h⟩
      simpa using sw_append_self (strL ("$root")) sp
  | .branchV o [(ck2, cv2)] =>
    intro l hl
    have hcv : leafOkT u cv2 = true := by
      simp only [leafOkT, leafOkL, Bool.and_eq_true] at hv
      exact hv.1
    rw [show fieldCompressWalkA c u b pp ck (.branchV o [(ck2, cv2)])
        = fieldCompressWalkA c u b (pp ++ [ck]) ck2 cv2 by simp [fieldCompressWalkA]] at hl
    exact fieldCompressWalkA_leaf_ok c u b (pp ++ [ck]) ck2 cv2 hcv l hl
  | .branchV o [] =>
    intro l hl
    rw [show fieldCompressWalkA c u b pp ck (.branchV o ([] : List (Str × TrieV)))
        = (pp ++ [ck], true, .objE true (fieldPartsA c u b []))
      by simp [fieldCompressWalkA]] at hl
    obtain ⟨x, hx, lp, hlp, h2⟩ := leavesT_objE_mem hl
    simp [fieldPartsA] at hx
  | .branchV o ((k1, v1) :: (k2, v2) :: cs) =>
    intro l hl
    rw [show fieldCompressWalkA c u b pp ck (.branchV o ((k1, v1) :: (k2, v2) :: cs))
        = (pp ++ [ck], true, .objE true (fieldPartsA c u b ((k1, v1) :: (k2, v2) :: cs)))
      by simp [fieldCompressWalkA]] at hl
    obtain ⟨x, hx, lp, hlp, h2⟩ := leavesT_objE_mem hl
    obtain ⟨⟨k3, v3⟩, hkv, hxe⟩ := fieldPartsA_mem hx
    have hv3 : leafOkT u v3 = true := by
      simp only [leafOkT] at hv
      exact leafOkL_mem hv hkv
    subst hxe
    exact rootPfxOk_of_snd h2 (fieldEntryA_leaf_ok c u b k3 v3 hv3 lp hlp)
termination_by sizeOf v
decreasing_by
  all_goals simp_wf
  all_goals try (have hsz := List.sizeOf_lt_of_mem hkv; simp at hsz)
  all_goals omega
end

theorem leavesList_mem {l : List Str × Bool × Str} {fr : List EAst}
    (h : l ∈ leavesList fr) : ∃ e ∈ fr, l ∈ leavesE e := by
  induction fr with
  | nil => simp [leavesList] at h
  | cons e rest ih =>
    simp only [leavesList] at h
    rcases List.mem_append.mp h with h1 | h1
    · exact ⟨e, by simp, h1⟩
    · obtain ⟨y, hy1, hy2⟩ := ih h1
      exact ⟨y, by simp [hy1], hy2⟩

theorem parsed_ok (paths : List SEntry)
    (hsp : ∀ e ∈ paths, jsStartsWith e.sourcePath (strL (".")) = true) :
    ∀ p ∈ paths.map parseEntry,
      jsStartsWith p.sourcePath (strL (".")) = true
      ∧ (p.isMoved = true → paths.any (·.isMoved) = true) := by
  intro p hp
  obtain ⟨e, he, hpe⟩ := List.mem_map.mp hp
  subst hpe
  refine ⟨hsp e he, fun hmv => ?_⟩
  exact List.any_eq_true.mpr ⟨e, he, by simpa [parseEntry] using hmv⟩

theorem sorted_items_mem {items : List GItem} {it : GItem}
    (h : it ∈ (sortOrd (items.map (fun it => (it.order, it)))).map (·.2)) :
    it ∈ items := by
  obtain ⟨pair, hp, hpe⟩ := List.mem_map.mp h
  have hp2 := (sortOrd_perm _).mem_iff.mp hp
  obtain ⟨it0, hit0, he⟩ := List.mem_map.mp hp2
  rw [← he] at hpe
  simp only at hpe
  rw [← hpe]
  exact hit0

/-- C9 (amended): the synthesized expression begins with the root-binding
clause `. as $root | ` exactly when some selected entry carries the `isMoved`
flag — set when the first matching MoveRecord prefix matches the entry's
display address, which is NOT the same as its source address differing from
its display address (see `rootBinding_without_relocation_counterexample`) —
and in the rendered expression (mirrored by `buildNestedExprA`, whose render
equals `buildNestedExpr` by `renderE_buildNestedExprA`) every flagged leaf's
value text is rendered with the `$root` variable prefix while no unflagged
leaf's value text is — given that every entry's source address is an address
(starts with a dot), as all collected entries' addresses do. -/
theorem rootBinding_and_leaf_prefix (compress : Bool) (paths : List SEntry)
    (hsp : ∀ e ∈ paths, jsStartsWith e.sourcePath (strL (".")) = true) :
    jsStartsWith (buildNestedExpr compress paths) (strL (". as $root | "))
      = paths.any (·.isMoved)
    ∧ ∀ l ∈ leavesE (buildNestedExprA compress paths),
        (l.2.1 = true → jsStartsWith l.2.2 (strL ("$root")) = true)
        ∧ (l.2.1 = false → jsStartsWith l.2.2 (strL ("$root")) = false) := by
  refine ⟨rootBinding_iff compress paths, ?_⟩
  intro l hl
  have hparsed := parsed_ok paths hsp
  simp only [buildNestedExprA, leavesE] at hl
  obtain ⟨e, he, hle⟩ := leavesList_mem hl
  rcases List.mem_append.mp he with hA | hB
  · split at hA
    · simp at hA
    · simp only [List.mem_singleton] at hA
      subst hA
      simp only [leavesE] at hle
      obtain ⟨x, hx, hlx⟩ := leavesEntries_mem hle
      have hx2 := (sortOrd_perm _).mem_iff.mp hx
      obtain ⟨⟨k3, v3⟩, hkv, hxe⟩ := treePartsA_mem hx2
      have hTW : leafOkL (paths.any (·.isMoved))
          (buildTreeWithOrder ((paths.map parseEntry).filter
            (fun p => !p.displaySegments.any (fun s => jsEndsWith s (strL ("[]")))))) = true :=
        buildTreeWithOrder_ok _ _ (fun p hp => hparsed p (List.mem_of_mem_filter hp))
      have hv3 := leafOkL_mem hTW hkv
      subst hxe
      exact entryA_leaf_ok compress _ k3 v3 hv3 l hlx
  · split at hB
    · simp at hB
    · obtain ⟨⟨b, items⟩, hg, hge⟩ := List.mem_map.mp hB
      subst hge
      simp only [groupExprA, leavesE] at hle
      obtain ⟨t, ht, hlt⟩ := List.mem_map.mp hle
      obtain ⟨x, hx, hlx⟩ := leavesEntries_mem ht
      have hx2 := (sortOrd_perm _).mem_iff.mp hx
      obtain ⟨⟨k3, v3⟩, hkv, hxe⟩ := fieldPartsA_mem hx2
      have hitems := buildGroups_items (paths.any (·.isMoved)) _
        (fun p hp => hparsed p (List.mem_of_mem_filter hp)) (b, items) hg
      have hFT : leafOkL (paths.any (·.isMoved))
          (((sortOrd (items.map (fun it => (it.order, it)))).map (·.2)).foldl
            (fun t it => ftInsert t it.rest it.sourcePath it.isMoved it.order) []) = true :=
        ftFold_ok _ _ [] rfl
          (fun it hit => hitems it (sorted_items_mem hit))
      have hv3 := leafOkL_mem hFT hkv
      subst hxe
      have hres := fieldEntryA_leaf_ok compress _ b k3 v3 hv3 t hlx
      rw [← hlt]
      exact hres

def w9e : SEntry :=
  { path := strL (".b")
    sourcePath := strL (".a")
    key := strL ("b")
    originalIndex := 0
    order := 0
    isMoved := true }

theorem rootBinding_and_leaf_prefix_witness :
    (∀ e ∈ [w9e], jsStartsWith e.sourcePath (strL (".")) = true)
    ∧ (jsStartsWith (buildNestedExpr true [w9e]) (strL (". as $root | "))
        = [w9e].any (·.isMoved)
      ∧ ∀ l ∈ leavesE (buildNestedExprA true [w9e]),
          (l.2.1 = true → jsStartsWith l.2.2 (strL ("$root")) = true)
          ∧ (l.2.1 = false → jsStartsWith l.2.2 (strL ("$root")) = false)) :=
  ⟨by decide, rootBinding_and_leaf_prefix true [w9e] (by decide)⟩

/-! ## C10 — key reordering during result serialization -/

theorem lexLt_asymm : ∀ {a b : Str}, lexLt a b = true → lexLt b a = false
  | [], [], h => by simp [lexLt] at h
  | [], _ :: _, _ => rfl
  | _ :: _, [], h => by simp [lexLt] at h
  | a :: as1, b :: bs, h => by
    simp only [lexLt] at h ⊢
    by_cases hab : a = b
    · subst hab
      simp only [if_pos rfl] at h ⊢
      exact lexLt_asymm h
    · rw [if_neg hab] at h
      rw [if_neg (fun hba => hab hba.symm)]
      have hlt : a < b := by simpa using h
      simp [not_lt_of_gt hlt]

theorem lexLt_neg_trans : ∀ {a b c : Str}, lexLt b a = false → lexLt c b = false →
    lexLt c a = false
  | [], b, c, _, _ => by
    cases c with
    | nil => rfl
    | cons c1 cs => rfl
  | _ :: _, [], _, h1, _ => by simp [lexLt] at h1
  | _ :: _, _ :: _, [], _, h2 => by simp [lexLt] at h2
  | a :: as1, b :: bs, c :: cs, h1, h2 => by
    simp only [lexLt] at h1 h2 ⊢
    by_cases hba : b = a
    · subst hba
      rw [if_pos rfl] at h1
      by_cases hcb : c = b
      · subst hcb
        rw [if_pos rfl] at h2 ⊢
        exact lexLt_neg_trans h1 h2
      · rw [if_neg hcb] at h2
        rw [if_neg hcb]
        exact h2
    · rw [if_neg hba] at h1
      have h1' : ¬ b < a := by simpa using h1
      by_cases hcb : c = b
      · subst hcb
        have hca : ¬ c = a := hba
        rw [if_neg hca]
        simpa using h1'
      · rw [if_neg hcb] at h2
        have h2' : ¬ c < b := by simpa using h2
        have hba' : a ≤ b := le_of_not_lt h1'
        have hcb' : b ≤ c := le_of_not_lt h2'
        by_cases hca : c = a
        · subst hca
          rw [if_pos rfl]
          have : b = c := le_antisymm hcb' hba'
          exact absurd this.symm hcb
        · rw [if_neg hca]
          simpa using not_lt_of_ge (le_trans hba' hcb')

theorem goLess_asymm {f : List Str} {a b : Str} (h : goLess f a b = true) :
    goLess f b a = false := by
  unfold goLess at h ⊢
  cases ha : lastIdxOf f a with
  | some pa =>
    cases hb : lastIdxOf f b with
    | some pb =>
      rw [ha, hb] at h
      have hlt : pa < pb := by simpa using h
      simpa using not_lt_of_gt hlt
    | none => rfl
  | none =>
    cases hb : lastIdxOf f b with
    | some pb =>
      rw [ha, hb] at h
      simp at h
    | none =>
      rw [ha, hb] at h
      exact lexLt_asymm h

theorem goLess_neg_trans {f : List Str} {a b c : Str} (h1 : goLess f b a = false)
    (h2 : goLess f c b = false) : goLess f c a = false := by
  unfold goLess at h1 h2 ⊢
  cases ha : lastIdxOf f a with
  | some pa =>
    cases hc : lastIdxOf f c with
    | some pc =>
      cases hb : lastIdxOf f b with
      | some pb =>
        rw [hb, ha] at h1
        rw [hc, hb] at h2
        have e1 : ¬ pb < pa := by simpa using h1
        have e2 : ¬ pc < pb := by simpa using h2
        simpa using fun hca => e1 (lt_of_le_of_lt (le_of_not_lt e2) hca)
      | none =>
        rw [hc, hb] at h2
        simp at h2
    | none => rfl
  | none =>
    cases hb : lastIdxOf f b with
    | some pb =>
      rw [hb, ha] at h1
      simp at h1
    | none =>
      cases hc : lastIdxOf f c with
      | some pc =>
        rw [hc, hb] at h2
        simp at h2
      | none =>
        rw [hb, ha] at h1
        rw [hc, hb] at h2
        exact lexLt_neg_trans h1 h2

theorem insGo_perm (f : List Str) (x : Str) (l : List Str) :
    (insGo f x l).Perm (x :: l) := by
  induction l with
  | nil => exact List.Perm.refl _
  | cons y ys ih =>
    unfold insGo
    split
    · exact List.Perm.refl _
    · exact (ih.cons y).trans (List.Perm.swap x y ys)

theorem sortGo_perm (f : List Str) (l : List Str) : (sortGo f l).Perm l := by
  induction l with
  | nil => exact List.Perm.refl _
  | cons x xs ih => exact (insGo_perm f x (sortGo f xs)).trans (ih.cons x)

theorem insGo_pairwise (f : List Str) (x : Str) (l : List Str)
    (h : l.Pairwise (fun a b => goLess f b a = false)) :
    (insGo f x l).Pairwise (fun a b => goLess f b a = false) := by
  induction l with
  | nil => simp [insGo]
  | cons y ys ih =>
    rcases List.pairwise_cons.mp h with ⟨hy, hys⟩
    unfold insGo
    split
    case isTrue hxy =>
      refine List.pairwise_cons.mpr ⟨?_, h⟩
      intro z hz
      rcases List.mem_cons.mp hz with h1 | h1
      · subst h1
        exact goLess_asymm hxy
      · exact goLess_neg_trans (goLess_asymm hxy) (hy z h1)
    case isFalse hxy =>
      refine List.pairwise_cons.mpr ⟨?_, ih hys⟩
      intro z hz
      rcases List.mem_cons.mp ((insGo_perm f x ys).mem_iff.mp hz) with h1 | h1
      · subst h1
        simpa using hxy
      · exact hy z h1

theorem sortGo_pairwise (f : List Str) (l : List Str) :
    (sortGo f l).Pairwise (fun a b => goLess f b a = false) := by
  induction l with
  | nil => simp [sortGo]
  | cons x xs ih => exact insGo_pairwise f x (sortGo f xs) ih

theorem insByKey_map_fst {α : Type} (f : List Str) (x : Str × α) (l : List (Str × α)) :
    (insByKey (goLess f) x l).map (·.1) = insGo f x.1 (l.map (·.1)) := by
  induction l with
  | nil => rfl
  | cons y ys ih =>
    by_cases h : goLess f x.1 y.1 = true
    · simp [insByKey, insGo, h]
    · simp only [insByKey, insGo, List.map]
      rw [if_neg h, if_neg h]
      simp [ih]

theorem sortByKey_map_fst {α : Type} (f : List Str) (l : List (Str × α)) :
    (sortByKey (goLess f) l).map (·.1) = sortGo f (l.map (·.1)) := by
  induction l with
  | nil => rfl
  | cons x xs ih => simp [sortByKey, sortGo, insByKey_map_fst, ih]

theorem writeOrderedPairs_fst (kvs : List (Str × JSON)) (fields : List Str) (indent : Nat) :
    (writeOrderedPairs kvs fields indent).map (·.1) = kvs.map (·.1) := by
  induction kvs with
  | nil => rfl
  | cons kv rest ih =>
    rcases kv with ⟨k, v⟩
    simp [writeOrderedPairs, ih]

theorem goLess_false_charac {f : List Str} {a b : Str} (h : goLess f b a = false) :
    match lastIdxOf f a, lastIdxOf f b with
    | some pa, some pb => pa ≤ pb
    | some _, none => True
    | none, some _ => False
    | none, none => lexLt b a = false := by
  unfold goLess at h
  cases ha : lastIdxOf f a with
  | some pa =>
    cases hb : lastIdxOf f b with
    | some pb =>
      rw [hb, ha] at h
      exact le_of_not_lt (by simpa using h)
    | none => trivial
  | none =>
    cases hb : lastIdxOf f b with
    | some pb =>
      rw [hb, ha] at h
      simp at h
    | none =>
      rw [hb, ha] at h
      exact h

/-- C10: Execute's serialization reorders object keys at every nesting level
(`writeOrderedJSON` passes the same extracted `fieldOrder` to each level and
sorts each object's keys with the `orderKeys` comparator): the emitted key
sequence of an object is a permutation of its keys in which keys found in the
field order extracted from the expression text — the text between its last
`{` and last `}`, comma-split, trimmed and cut at the first colon, a
duplicated key keeping its last position — come first, ordered by that
position, and all remaining keys follow in ascending lexical (Go byte-wise)
order; when the expression has no brace group the extracted order is empty
and a single result is serialized by standard lexical marshalling. -/
theorem execute_key_reordering (expr : Str) (kvs : List (Str × JSON))
    (fields : List Str) (indent : Nat) :
    executeSerialize expr [.obj kvs] = marshalOrdered (.obj kvs) (extractFieldOrder expr)
    ∧ (sortByKey (goLess fields) (writeOrderedPairs kvs fields indent)).map (·.1)
        = orderKeys kvs fields
    ∧ (orderKeys kvs fields).Perm (kvs.map (·.1))
    ∧ (orderKeys kvs fields).Pairwise (fun a b =>
        match lastIdxOf fields a, lastIdxOf fields b with
        | some pa, some pb => pa ≤ pb
        | some _, none => True
        | none, some _ => False
        | none, none => lexLt b a = false)
    ∧ (lastIndexOfStr expr (strL ("\x7b")) = none →
        ∀ r, executeSerialize expr [r] = stdMarshal r 0) := by
  refine ⟨rfl, ?_, ?_, ?_, ?_⟩
  · rw [sortByKey_map_fst, writeOrderedPairs_fst]
    rfl
  · exact sortGo_perm fields (kvs.map (·.1))
  · exact (sortGo_pairwise fields (kvs.map (·.1))).imp (fun h => goLess_false_charac h)
  · intro h r
    simp [executeSerialize, extractFieldOrder, h, marshalOrdered]

theorem execute_key_reordering_witness :
    lastIndexOfStr (strL (".")) (strL ("\x7b")) = none
    ∧ executeSerialize (strL (".")) [JSON.num 3] = stdMarshal (JSON.num 3) 0 :=
  ⟨by decide, (execute_key_reordering (strL (".")) [] [] 0).2.2.2.2 (by decide) (JSON.num 3)⟩

/-- `{"a": {"b": 1}}` -/
def docParent : JSON := .obj [(strL ("a"), .obj [(strL ("b"), .num 1)])]

/-- The C9 counterexample state: select the leaf `.a.b`, then drop it onto its
own parent `.a`.  None of the `onDrop` or `handleMoveInto` guards block this
(the target neither equals the source nor extends it), and the node's new
address equals its old one. -/
def stParent : JNode × List MoveRec :=
  onDropMoveInto (toggleSelect ((buildRoot docParent).getD dfltNode) (strL (".a.b")))
    [] (strL (".a.b")) (strL (".a"))

/-- C9 counterexample to the frozen claim's biconditional: after moving `.a.b`
into its own parent `.a`, the single collected entry has its source address
EQUAL to its display address (no entry is relocated in the claim's sense), yet
its `isMoved` flag is set (the appended MoveRecord's prefix `.a.b` matches the
unchanged display address), so the synthesized expression carries the
root-binding clause and reads the leaf through `$root`: the binding tracks the
record-match flag, not a source/display address difference. -/
theorem rootBinding_without_relocation_counterexample :
    collectSelected stParent.2 stParent.1
      = [{ path := strL (".a.b"), sourcePath := strL (".a.b"), key := strL ("b"),
           originalIndex := 0, order := 0, isMoved := true }]
    ∧ jsStartsWith (updateExpression true stParent.2 stParent.1)
        (strL (". as $root | ")) = true
    ∧ updateExpression true stParent.2 stParent.1
        = strL (". as $root | ") ++ [('{'), ('"')] ++ strL ("a.b")
          ++ [('"')] ++ strL (": $root.a.b") ++ [('}')] := by decide
